import Mathlib

/-!
# Verification of HG2Vec-Multi-Lang pair generation and random-walk corpus generation

Shallow embedding of
* `src/tools/pair_generators/generate_weak_strong_pairs.py`
  (`loadEmbedding`, `generate_pairs`), and
* `src/tools/processors/preprocessor/edge_generator.py`
  (`output_edges`, `output_polar_edges`)

over exact rational arithmetic.  Python floats are modelled by `ℚ`; tokens
(whitespace-split fields of a text file) by `String`; a text file by the list
of its lines, each line already split into its fields (`str.split()`); an
exception escaping a function by `Except.error`.  Randomness is modelled by
oracle parameters: every call to `random.choice` / `random.choices` /
`random.randint` consumes one natural number `r` from an oracle and the
selected in-range index is `r % n`, which ranges over exactly the possible
outcomes; `np.random.permutation(n)` is modelled by a list parameter that the
theorems constrain to be a permutation of `List.range n`.
-/

namespace HG2Vec

abbrev Token := String

/-- Model of Python `float(s)` restricted to plain decimal literals
(optional leading `-`, digits, optional single `.`): returns the parsed
rational, or `none` when `float(s)` would raise `ValueError`. -/
def pyFloatCore (cs : List Char) : Option ℚ :=
  let intPart := cs.takeWhile Char.isDigit
  let rest := cs.dropWhile Char.isDigit
  match rest with
  | [] => if intPart = [] then none else
      some ((intPart.foldl (fun a c => 10 * a + (c.toNat - 48)) 0 : ℕ) : ℚ)
  | '.' :: frac =>
      if frac.all Char.isDigit ∧ (intPart ≠ [] ∨ frac ≠ []) then
        some (((intPart.foldl (fun a c => 10 * a + (c.toNat - 48)) 0 : ℕ) : ℚ) +
          ((frac.foldl (fun a c => 10 * a + (c.toNat - 48)) 0 : ℕ) : ℚ) / (10 ^ frac.length))
      else none
  | _ => none

def pyFloat? (s : String) : Option ℚ :=
  match s.data with
  | '-' :: rest => (pyFloatCore rest).map (fun q => -q)
  | cs => pyFloatCore cs

/-- Model of Python `int(s)` on plain decimal integer literals. -/
def pyIntCore (cs : List Char) : Option ℤ :=
  if cs ≠ [] ∧ cs.all Char.isDigit then
    some ((cs.foldl (fun a c => 10 * a + (c.toNat - 48)) 0 : ℕ) : ℤ)
  else none

def pyInt? (s : String) : Option ℤ :=
  match s.data with
  | '-' :: rest => (pyIntCore rest).map (fun z => -z)
  | cs => pyIntCore cs

/-- `map` over a list in the `Except` monad, written as plain recursion so
that proofs can proceed by structural induction.  Models a Python loop that
may raise. -/
def exceptMap (f : α → Except String β) : List α → Except String (List β)
  | [] => Except.ok []
  | a :: l =>
    match f a with
    | Except.error e => Except.error e
    | Except.ok b =>
      match exceptMap f l with
      | Except.error e => Except.error e
      | Except.ok bs => Except.ok (b :: bs)

/-- `foldl` over a list in the `Except` monad (a Python loop with a mutable
accumulator that may raise). -/
def exceptFold (g : σ → α → Except String σ) : σ → List α → Except String σ
  | s, [] => Except.ok s
  | s, a :: l =>
    match g s a with
    | Except.error e => Except.error e
    | Except.ok s' => exceptFold g s' l

/-! ## Graph model (`networkx.Graph` as used by `edge_generator.py`)

`load_graph` reads an undirected weighted edge list.  We model the graph by
the list of its edges `(u, v, weight)` in file order; nodes are `ℕ`.
`list(G.nodes())` is the deduplicated (first occurrence kept) list of edge
endpoints in insertion order, which networkx guarantees. -/

structure WGraph where
  edges : List (ℕ × ℕ × ℚ)

def dedupKeepFirst (l : List ℕ) : List ℕ :=
  l.foldl (fun acc x => if x ∈ acc then acc else acc ++ [x]) []

def nodeListOf (G : WGraph) : List ℕ :=
  dedupKeepFirst ((G.edges.map (fun e => [e.1, e.2.1])).flatten)

def hasEdge (G : WGraph) (u v : ℕ) : Bool :=
  G.edges.any (fun e => (e.1 = u ∧ e.2.1 = v) ∨ (e.1 = v ∧ e.2.1 = u))

/-- `G.edges[(u, v)]['weight']`: weight of the edge between `u` and `v`
(the last matching line wins, as in `networkx` edge-attribute overwrite). -/
def weight (G : WGraph) (u v : ℕ) : ℚ :=
  ((G.edges.filter (fun e => (e.1 = u ∧ e.2.1 = v) ∨ (e.1 = v ∧ e.2.1 = u))).getLast?).elim
    0 (fun e => e.2.2)

/-- `list(G.neighbors(u))` in adjacency insertion order. -/
def neighbors (G : WGraph) (u : ℕ) : List ℕ :=
  dedupKeepFirst (G.edges.filterMap (fun e =>
    if e.1 = u then some e.2.1 else if e.2.1 = u then some e.1 else none))

/-- `last_node` starts as the Python int `0`, which compares unequal to every
node label (nodes are strings in the Python graph); so the previous node is
an `Option ℕ` with `none` as the sentinel. `G.has_edge(0, nbr)` is `False`. -/
def hasEdgeO (G : WGraph) (lastO : Option ℕ) (v : ℕ) : Bool :=
  match lastO with
  | none => false
  | some u => hasEdge G u v

/-- The biased-walk weight adjustment (`edge_generator.py`, the
`for nbr in neighbors` loop of both `output_edges` and `output_polar_edges`).
`pInv` and `qInv` are the precomputed `p = 1.0/args.p`, `q = 1.0/args.q`. -/
def adjustedWeights (G : WGraph) (pInv qInv : ℚ) (current : ℕ) (lastO : Option ℕ) : List ℚ :=
  (neighbors G current).map (fun nbr =>
    let w := weight G current nbr
    if some nbr = lastO then pInv * w
    else if hasEdgeO G lastO nbr then w
    else qInv * w)

/-- `random.choices(population, weights=ws, k=1)`: raises `ValueError` when
the total weight is not positive, otherwise selects an index (oracle `r`). -/
def randomChoicesW (ws : List ℚ) (r : ℕ) : Except String ℕ :=
  if ws.sum ≤ 0 then Except.error "ValueError: Total of weights must be greater than zero"
  else Except.ok (r % ws.length)

/-- One neighbor selection of `output_edges`: the `sum(neighbors_weight) <= 0`
guard falls back to `random.choice(neighbors)` (uniform, flag `true`,
printing the zero-weights warning), otherwise `random.choices` with the
adjusted weights is used (flag `false`). -/
def samplerPick (ws : List ℚ) (r : ℕ) : Except String (ℕ × Bool) :=
  if ws.sum ≤ 0 then Except.ok (r % ws.length, true)
  else
    match randomChoicesW ws r with
    | Except.ok j => Except.ok (j, false)
    | Except.error e => Except.error e

/-- The inner `for i in range(1, max_length)` loop of `output_edges`:
`fuel = max_length - i` iterations remain; `row` is the preallocated
`np.zeros` output row, written in place at position `i`. -/
def walkLoop (G : WGraph) (pInv qInv : ℚ) (picks : ℕ → ℕ) :
    ℕ → ℕ → ℕ → Option ℕ → List ℕ → Except String (List ℕ)
  | _, 0, _, _, row => Except.ok row
  | i, fuel + 1, current, lastO, row =>
    let nbrs := neighbors G current
    if nbrs.isEmpty then Except.ok row
    else
      let ws := adjustedWeights G pInv qInv current lastO
      match samplerPick ws (picks i) with
      | Except.error e => Except.error e
      | Except.ok (j, _) =>
        let next := nbrs.getD j 0
        walkLoop G pInv qInv picks (i + 1) fuel next (some current) (row.set i next)

/-- `n_samples` resolution: `-1` means "all nodes". -/
def resolveNSamples (arg : ℤ) (nodeList : List ℕ) : ℕ :=
  if arg = -1 then nodeList.length else arg.toNat

/-- Start-node selection, common to `output_edges` and `output_polar_edges`:
when `n_samples == len(node_list)` the `n`-th walk starts from
`node_list[indices[n]]` where `indices = np.random.permutation(n_samples)`
(the oracle `perm`); otherwise each start is an independent
`random.choice(node_list)` (the oracle `startPick`). -/
def startNodes (nodeList : List ℕ) (nSamples : ℕ) (perm : List ℕ) (startPick : ℕ → ℕ) :
    List ℕ :=
  (List.range nSamples).map (fun n =>
    if nSamples = nodeList.length then nodeList.getD (perm.getD n 0) 0
    else nodeList.getD (startPick n % nodeList.length) 0)

/-- `output_edges` (normal mode): one shard of `n_samples` rows, each a
fixed-length buffer of `max_length` node ids starting with the seed. -/
def output_edges (G : WGraph) (pArg qArg : ℚ) (maxLen : ℕ) (nSamplesArg : ℤ)
    (perm : List ℕ) (startPick : ℕ → ℕ) (picks : ℕ → ℕ → ℕ) :
    Except String (List (List ℕ)) :=
  let pInv := 1 / pArg
  let qInv := 1 / qArg
  let nodeList := nodeListOf G
  let n := resolveNSamples nSamplesArg nodeList
  let starts := startNodes nodeList n perm startPick
  exceptMap (fun k =>
      walkLoop G pInv qInv (picks k) 1 (maxLen - 1) (starts.getD k 0) none
        ((List.replicate maxLen 0).set 0 (starts.getD k 0)))
    (List.range n)

/-! ## Polar mode -/

structure PolarState where
  current : ℕ
  last : Option ℕ
  sign : ℤ
  posRow : List ℕ
  negRow : List ℕ
  posCount : ℕ
  negCount : ℕ
  deriving DecidableEq


structure PolarPick where
  usedWeights : List ℚ
  fallback : Bool
  idx : ℕ
  deriving DecidableEq


/-- Polar neighbor selection (`output_polar_edges`): the weights handed to
`random.choices` are `np.abs(neighbors_weight)`; when their sum is `≤ 0`
the code falls back to `random.randint(0, len-1)` (uniform, flag `true`). -/
def polarChoose (ws : List ℚ) (r : ℕ) : Except String PolarPick :=
  let aw := ws.map (fun w => |w|)
  if aw.sum ≤ 0 then Except.ok ⟨aw, true, r % ws.length⟩
  else
    match randomChoicesW aw r with
    | Except.ok i => Except.ok ⟨aw, false, i⟩
    | Except.error e => Except.error e

/-- `if neighbors_weight[current_idx] < 0: current_node_positive *= -1`. -/
def polarSignUpdate (w : ℚ) (sign : ℤ) : ℤ :=
  if w < 0 then -sign else sign

/-- One iteration of the `for i in range(1, max_length)` loop of
`output_polar_edges`; `none` models the `break` on a neighborless node. -/
def polarStep (G : WGraph) (pInv qInv : ℚ) (r : ℕ) (st : PolarState) :
    Except String (Option PolarState) :=
  let nbrs := neighbors G st.current
  if nbrs.isEmpty then Except.ok none
  else
    let ws := adjustedWeights G pInv qInv st.current st.last
    match polarChoose ws r with
    | Except.error e => Except.error e
    | Except.ok pk =>
      let sign' := polarSignUpdate (ws.getD pk.idx 0) st.sign
      let current' := nbrs.getD pk.idx 0
      if sign' > 0 then
        Except.ok (some { current := current'
                          last := some st.current
                          sign := sign'
                          posRow := st.posRow.set st.posCount current'
                          posCount := st.posCount + 1
                          negRow := st.negRow
                          negCount := st.negCount })
      else
        Except.ok (some { current := current'
                          last := some st.current
                          sign := sign'
                          posRow := st.posRow
                          posCount := st.posCount
                          negRow := st.negRow.set st.negCount current'
                          negCount := st.negCount + 1 })

def polarLoop (G : WGraph) (pInv qInv : ℚ) (picks : ℕ → ℕ) :
    ℕ → ℕ → PolarState → Except String PolarState
  | _, 0, st => Except.ok st
  | i, fuel + 1, st =>
    match polarStep G pInv qInv (picks i) st with
    | Except.error e => Except.error e
    | Except.ok none => Except.ok st
    | Except.ok (some st') => polarLoop G pInv qInv picks (i + 1) fuel st'

/-- One polar seed: the positive track is row `n` (seed written at index 0,
`positive_count = 1`), the negative track is row `n_samples + n`
(`negative_count = 0`). -/
def polarWalk (G : WGraph) (pInv qInv : ℚ) (maxLen : ℕ) (start : ℕ) (picks : ℕ → ℕ) :
    Except String (List ℕ × List ℕ) :=
  match polarLoop G pInv qInv picks 1 (maxLen - 1)
      { current := start
        last := none
        sign := 1
        posRow := (List.replicate maxLen 0).set 0 start
        negRow := List.replicate maxLen 0
        posCount := 1
        negCount := 0 } with
  | Except.error e => Except.error e
  | Except.ok st => Except.ok (st.posRow, st.negRow)

/-- `output_polar_edges`: the shard is `2 * n_samples` rows; row `n` is the
positive track of seed `n` and row `n_samples + n` its negative track. -/
def output_polar_edges (G : WGraph) (pArg qArg : ℚ) (maxLen : ℕ) (nSamplesArg : ℤ)
    (perm : List ℕ) (startPick : ℕ → ℕ) (picks : ℕ → ℕ → ℕ) :
    Except String (List (List ℕ)) :=
  let pInv := 1 / pArg
  let qInv := 1 / qArg
  let nodeList := nodeListOf G
  let n := resolveNSamples nSamplesArg nodeList
  let starts := startNodes nodeList n perm startPick
  match exceptMap (fun k => polarWalk G pInv qInv maxLen (starts.getD k 0) (picks k))
      (List.range n) with
  | Except.error e => Except.error e
  | Except.ok prs => Except.ok (prs.map Prod.fst ++ prs.map Prod.snd)

/-! ## `generate_weak_strong_pairs.py`

The definitions file is the list of its lines, each line split into fields.
`dictionary[word] = Counter(ar[1:])` is modelled by the raw field list
`ar[1:]`: membership in a `Counter` is membership among its keys, and
iterating the raw list instead of the `Counter`'s key set revisits duplicate
tokens, every effect of which (set inserts, pure lookups) is idempotent, so
the resulting pair sets are identical. -/

abbrev Dict := List (Token × List Token)

def insertNew (l : List Token) (t : Token) : List Token :=
  if t ∈ l then l else l ++ [t]

/-- Python `dict` assignment `d[w] = ds`: overwrite in place or append. -/
def updDict (d : Dict) (w : Token) (ds : List Token) : Dict :=
  if d.any (fun p => p.1 == w) then d.map (fun p => if p.1 == w then (w, ds) else p)
  else d ++ [(w, ds)]

def lookupD (d : Dict) (t : Token) : Option (List Token) :=
  (d.find? (fun p => p.1 == t)).map (fun p => p.2)

/-- One line of the definition-loading loop of `generate_pairs`:
`ar = line.strip().split(); word, definition_words = ar[0], Counter(ar[1:])`.
An empty (whitespace-only) line makes `ar[0]` raise `IndexError`. -/
def defLineStep (st : Dict × List Token) (l : List Token) : Except String (Dict × List Token) :=
  match l with
  | [] => Except.error "IndexError: list index out of range"
  | w :: ds => Except.ok (updDict st.1 w ds, ds.foldl insertNew (insertNew st.2 w))

/-- The definition-loading loop: returns the dictionary and `uniq_words`. -/
def loadDefinitions (lines : List (List Token)) : Except String (Dict × List Token) :=
  exceptFold defLineStep (([], []) : Dict × List Token) lines

/-! ### `loadEmbedding` -/

structure EmbResult where
  matrix : List (List ℚ)
  numToWords : List (ℕ × Token)
  wordsToNum : List (Token × ℕ)
  warnings : List String
  deriving DecidableEq


def lookupN (l : List (ℕ × Token)) (i : ℕ) : Option Token :=
  (l.find? (fun p => p.1 == i)).map (fun p => p.2)

def lookupW (l : List (Token × ℕ)) (w : Token) : Option ℕ :=
  (l.find? (fun p => p.1 == w)).map (fun p => p.2)

/-- Python `dict` update for `numToWords` (insertion order kept). -/
def updAssocN (l : List (ℕ × Token)) (k : ℕ) (v : Token) : List (ℕ × Token) :=
  if l.any (fun p => p.1 == k) then l.map (fun p => if p.1 == k then (k, v) else p)
  else l ++ [(k, v)]

/-- Python `dict` update for `wordsToNum`. -/
def updAssocW (l : List (Token × ℕ)) (k : Token) (v : ℕ) : List (Token × ℕ) :=
  if l.any (fun p => p.1 == k) then l.map (fun p => if p.1 == k then (k, v) else p)
  else l ++ [(k, v)]

/-- First-pass validity of a non-first line: `len(parts) > 1`, the word is in
`list_words`, and every coordinate parses as a float. -/
def lineValidFor (listWords : List Token) : List Token → Bool
  | [] => false
  | w :: rest => decide (rest ≠ [] ∧ w ∈ listWords ∧ ∀ t ∈ rest, (pyFloat? t).isSome = true)

/-- The words appended to `valid_words` while scanning the non-first lines,
in file order (one occurrence per valid line). -/
def scanValid (listWords : List Token) (ls : List (List Token)) : List Token :=
  (ls.filter (fun l => lineValidFor listWords l)).filterMap List.head?

/-- `len(first_line) == 2` and both fields convert with `int(...)`. -/
def isHeaderLine (fl : List Token) : Bool :=
  decide (fl.length = 2) && (pyInt? (fl.getD 0 "")).isSome && (pyInt? (fl.getD 1 "")).isSome

/-- First pass of `loadEmbedding`: determine `valid_words` (hence `nb_word`)
and `nb_dims`.  On an empty file the non-header branch evaluates
`first_line[0]` and raises `IndexError`.  The first line, when not a header,
is checked without the `len(parts) > 1` requirement applied to later lines. -/
def pass1 (listWords : List Token) (lines : List (List Token)) :
    Except String (List Token × ℕ) :=
  let fl := lines.headD []
  let rest := lines.tail
  if fl.length = 2 then
    if (pyInt? (fl.getD 0 "")).isSome && (pyInt? (fl.getD 1 "")).isSome then
      Except.ok (scanValid listWords rest, ((pyInt? (fl.getD 1 "")).getD 0).toNat)
    else
      let w := fl.getD 0 ""
      let first := if decide (w ∈ listWords ∧ ∀ t ∈ fl.tail, (pyFloat? t).isSome = true)
        then [w] else []
      Except.ok (first ++ scanValid listWords rest, fl.tail.length)
  else
    match fl with
    | [] => Except.error "IndexError: list index out of range"
    | w :: tl =>
      let first := if decide (w ∈ listWords ∧ ∀ t ∈ tl, (pyFloat? t).isSome = true)
        then [w] else []
      Except.ok (first ++ scanValid listWords rest, tl.length)

/-- `embedding[idx] = vals`: succeeds when the value list matches the row
width, or has length 1 (numpy broadcast); any other length raises the
`ValueError` that the source catches and skips. -/
def rowAssign (nbDims : ℕ) (vals : List ℚ) : Option (List ℚ) :=
  if vals.length = nbDims then some vals
  else if vals.length = 1 then some (List.replicate nbDims (vals.getD 0 0))
  else none

structure P2State where
  matrix : List (List ℚ)
  n2w : List (ℕ × Token)
  w2n : List (Token × ℕ)
  idx : ℕ
  deriving DecidableEq


/-- Second pass of `loadEmbedding`, one line: fill the matrix row and the two
index maps for lines whose word is in `valid_words`; a `ValueError` (from
`float` or from the row assignment) skips the line. -/
def pass2Line (validWords : List Token) (nbDims : ℕ) (st : P2State) :
    List Token → P2State
  | [] => st
  | [_] => st
  | w :: rest =>
    if w ∈ validWords then
      if rest.all (fun t => (pyFloat? t).isSome) then
        match rowAssign nbDims (rest.map (fun t => (pyFloat? t).getD 0)) with
        | some row =>
          { matrix := st.matrix.set st.idx row
            n2w := updAssocN st.n2w st.idx w
            w2n := updAssocW st.w2n w st.idx
            idx := st.idx + 1 }
        | none => st
      else st
    else st

/-- The whole second pass: the first line is skipped when it is a header,
processed when it has more than two fields, and skipped otherwise; then
every further line is processed. -/
def pass2 (validWords : List Token) (nbDims : ℕ) (lines : List (List Token)) : P2State :=
  let init : P2State :=
    ⟨List.replicate validWords.length (List.replicate nbDims 0), [], [], 0⟩
  let fl := lines.headD []
  let st1 := if isHeaderLine fl then init
    else if 2 < fl.length then pass2Line validWords nbDims init fl
    else init
  lines.tail.foldl (pass2Line validWords nbDims) st1

/-- `loadEmbedding(filename, list_words)`.  `none` models a path whose
`open` raises `FileNotFoundError`; the source's `except Exception` handler
prints and re-raises, so the error escapes.  The final row-normalization of
the source divides each row by its Euclidean norm, a real-valued operation
with no exact rational counterpart; it is omitted here.  It touches neither
the matrix shape nor the two word/index maps, and the concrete inputs used
in the theorems below have unit-norm rows, on which it is the identity. -/
def loadEmbedding (fileLines : Option (List (List Token))) (listWords : List Token) :
    Except String EmbResult :=
  match fileLines with
  | none => Except.error "FileNotFoundError"
  | some lines =>
    match pass1 listWords lines with
    | Except.error e => Except.error e
    | Except.ok (validWords, nbDims) =>
      Except.ok { matrix := (pass2 validWords nbDims lines).matrix
                  numToWords := (pass2 validWords nbDims lines).n2w
                  wordsToNum := (pass2 validWords nbDims lines).w2n
                  warnings := if 0 < validWords.length then []
                    else ["Warning: No valid embeddings found!"] }

/-! ### Top-K augmentation -/

def dotQ (u v : List ℚ) : ℚ :=
  ((u.zip v).map (fun p => p.1 * p.2)).sum

/-- `cosine_sim = embedding.dot(embed_def_token)` where `embed_def_token =
embedding[wordsToNum[definition_token]]`. -/
def simsOf (matrix : List (List ℚ)) (ti : ℕ) : List ℚ :=
  matrix.map (fun row => dotQ row (matrix.getD ti []))

/-- Insert index `i` into an index list sorted by strictly decreasing
similarity (ties keep the existing element first). -/
def insertByVal (xs : List ℚ) (i : ℕ) : List ℕ → List ℕ
  | [] => [i]
  | j :: rest => if xs.getD j 0 < xs.getD i 0 then i :: j :: rest
    else j :: insertByVal xs i rest

def sortIdxDesc (xs : List ℚ) : List ℕ :=
  (List.range xs.length).foldr (insertByVal xs) []

/-- `np.argpartition(cosine_sim, -(K+1))[-(K+1):]` with `m = K+1`: raises
`ValueError` (kth out of bounds) when the array has fewer than `m` entries,
otherwise yields `m` indices carrying the `m` largest values. -/
def argpartTop (xs : List ℚ) (m : ℕ) : Except String (List ℕ) :=
  if xs.length < m then Except.error "ValueError: kth out of bounds"
  else Except.ok ((sortIdxDesc xs).take m)

/-- The artificial-strong-pair block for one natural strong pair with
definition token `defToken` at row `ti`: select the `K+1` top-similarity
indices, read each word from `numToWords` (a missing key would raise
`KeyError`), and keep those different from `defToken`. -/
def closeWords (matrix : List (List ℚ)) (n2w : List (ℕ × Token)) (defToken : Token)
    (ti : ℕ) (K : ℕ) : Except String (List Token) :=
  match argpartTop (simsOf matrix ti) (K + 1) with
  | Except.error e => Except.error e
  | Except.ok sel =>
    match exceptMap (fun i =>
        match lookupN n2w i with
        | some w => Except.ok w
        | none => Except.error "KeyError") sel with
    | Except.error e => Except.error e
    | Except.ok cws => Except.ok (cws.filter (fun c => c ≠ defToken))

/-! ### The pair-generation loop -/

structure PairSets where
  strong : Finset (Token × Token)
  weak : Finset (Token × Token)
  deriving DecidableEq


/-- `w1, w2 = min(word, tok), max(word, tok)`: canonical alphabetical form. -/
def ordPair (a b : Token) : Token × Token :=
  if a ≤ b then (a, b) else (b, a)

/-- `definition_token in dictionary and word in dictionary[definition_token]`. -/
def mutualMem (d : Dict) (w t : Token) : Bool :=
  match lookupD d t with
  | none => false
  | some ts => decide (w ∈ ts)

/-- One definition token of one word, natural classification only
(the `case 0/1/2` branches without the `K > 0` block). -/
def stepTok (d : Dict) (w t : Token) (acc : PairSets) : PairSets :=
  if w = t then acc
  else if mutualMem d w t then { acc with strong := insert (ordPair w t) acc.strong }
  else { acc with weak := insert (ordPair w t) acc.weak }

def emptyEmb : EmbResult := ⟨[], [], [], []⟩

/-- One definition token of one word, including the artificial
strong-pair augmentation when `K > 0`. -/
def stepTokFull (d : Dict) (emb : EmbResult) (K : ℕ) (w t : Token) (acc : PairSets) :
    Except String PairSets :=
  if w = t then Except.ok acc
  else if mutualMem d w t then
    let acc1 : PairSets := { acc with strong := insert (ordPair w t) acc.strong }
    if 0 < K then
      match lookupW emb.wordsToNum t with
      | none => Except.ok acc1
      | some ti =>
        match closeWords emb.matrix emb.numToWords t ti K with
        | Except.error e => Except.error e
        | Except.ok cws =>
          Except.ok { acc1 with
            strong := cws.foldl (fun s c => insert (ordPair w c) s) acc1.strong }
    else Except.ok acc1
  else Except.ok { acc with weak := insert (ordPair w t) acc.weak }

/-- The embedding argument of `generate_pairs`: no `-e` option
(`embedding_fn is None`), a path to a missing file, or a readable file. -/
inductive EmbArg
  | noFile
  | missing
  | file (lines : List (List Token))

structure GenOut where
  strong : Finset (Token × Token)
  weak : Finset (Token × Token)
  warnings : List String
  kUsed : ℕ
  deriving DecidableEq


def warnNoEmbFile : String :=
  "Warning: K > 0 but no embedding file provided. Only natural strong pairs will be generated."

/-- `generate_pairs(definition_fn, embedding_fn, ..., K)` up to the point the
pair sets are written out: load the definitions, load the embedding when
`K > 0` and a filename was given (degrading to `K = 0` with a warning when
it was not), then run the classification loop. -/
def generate_pairs (defLines : List (List Token)) (emb : EmbArg) (K : ℕ) :
    Except String GenOut :=
  match loadDefinitions defLines with
  | Except.error e => Except.error e
  | Except.ok (dict, uniq) =>
    match (if 0 < K then
        match emb with
        | EmbArg.noFile => Except.ok ((emptyEmb, 0, [warnNoEmbFile]) : EmbResult × ℕ × List String)
        | EmbArg.missing =>
          match loadEmbedding none uniq with
          | Except.error e => Except.error e
          | Except.ok r => Except.ok (r, K, r.warnings)
        | EmbArg.file ls =>
          match loadEmbedding (some ls) uniq with
          | Except.error e => Except.error e
          | Except.ok r => Except.ok (r, K, r.warnings)
      else Except.ok (emptyEmb, K, [])) with
    | Except.error e => Except.error e
    | Except.ok (ed, kEff, warns) =>
      match exceptFold (fun acc wd =>
          exceptFold (fun a t => stepTokFull dict ed kEff wd.1 t a) acc wd.2)
        (⟨∅, ∅⟩ : PairSets) dict with
      | Except.error e => Except.error e
      | Except.ok sets =>
        Except.ok { strong := sets.strong
                    weak := sets.weak
                    warnings := warns
                    kUsed := kEff }

/-- Natural classification of a full dictionary (the loop with `K = 0`). -/
def naturalPairs (d : Dict) : PairSets :=
  d.foldl (fun acc wd => wd.2.foldl (fun a t => stepTok d wd.1 t a) acc) ⟨∅, ∅⟩

/-- Projections used to state concrete counterexamples. -/
def genOutOf (e : Except String GenOut) : GenOut :=
  match e with
  | Except.ok o => o
  | Except.error _ => ⟨∅, ∅, [], 0⟩

def embResOf (e : Except String EmbResult) : EmbResult :=
  match e with
  | Except.ok r => r
  | Except.error _ => emptyEmb

/-- The bijection the spec asserts between matrix rows and the two maps. -/
def mapsBijective (r : EmbResult) : Prop :=
  (∀ i, i < r.matrix.length →
    ∃ w, lookupN r.numToWords i = some w ∧ lookupW r.wordsToNum w = some i) ∧
  (∀ w i, lookupW r.wordsToNum w = some i →
    i < r.matrix.length ∧ lookupN r.numToWords i = some w)

/-- `numToWords` as built by a clean second pass: row `k + j` maps to the
`j`-th valid word. -/
def enumN : ℕ → List Token → List (ℕ × Token)
  | _, [] => []
  | k, w :: ws => (k, w) :: enumN (k + 1) ws

/-- `wordsToNum` as built by a clean second pass. -/
def enumW : ℕ → List Token → List (Token × ℕ)
  | _, [] => []
  | k, w :: ws => (w, k) :: enumW (k + 1) ws

instance {ε α : Type} [DecidableEq ε] [DecidableEq α] : DecidableEq (Except ε α) := fun a b =>
  match a, b with
  | Except.error e, Except.error e' =>
    if h : e = e' then isTrue (by rw [h]) else isFalse (by simp [h])
  | Except.ok x, Except.ok y =>
    if h : x = y then isTrue (by rw [h]) else isFalse (by simp [h])
  | Except.error _, Except.ok _ => isFalse (by simp)
  | Except.ok _, Except.error _ => isFalse (by simp)

/-! ## Theorems -/

/-- **C3** — For every step of the biased walk in state
`(current_node, last_node)`, a neighbor `nbr` with base edge weight `w`
receives adjusted weight `w/p` if `nbr` equals the last node, `w` if an edge
exists between the last node and `nbr`, and `w/q` otherwise (the source
computes `p = 1.0/args.p` and multiplies); and on the single-edge graph
`A--B` of weight `1.0` with `p = 2.0`, `current = A`, `last = B`, the
transition weight back to `B` is `0.5`. -/
theorem claim_C3 :
    (∀ (G : WGraph) (pA qA : ℚ) (current : ℕ) (lastO : Option ℕ),
      adjustedWeights G (1 / pA) (1 / qA) current lastO =
        (neighbors G current).map (fun nbr =>
          if some nbr = lastO then weight G current nbr / pA
          else if hasEdgeO G lastO nbr then weight G current nbr
          else weight G current nbr / qA)) ∧
    adjustedWeights ⟨[(1, 2, 1)]⟩ (1 / 2) (1 / 5) 1 (some 2) = [1 / 2] := by
  constructor
  · intro G pA qA current lastO
    unfold adjustedWeights
    apply List.map_congr_left
    intro nbr _
    dsimp only
    split_ifs <;> first | rfl | rw [one_div_mul_eq_div]
  · with_unfolding_all decide

/-- **C7** — In polar mode the next node is selected by weighted random
choice over the absolute values of the adjusted weights: the weight list
handed to `random.choices` is `np.abs(neighbors_weight)`, and two weight
lists with the same absolute values yield the same selection; the running
sign flag flips (once) exactly when the chosen edge's signed weight is
negative; traversing a weight `-1` edge flips the flag exactly once in
either state. -/
theorem claim_C7 :
    (∀ (ws : List ℚ) (r : ℕ), 0 < (ws.map (fun w => |w|)).sum →
      polarChoose ws r =
        Except.ok ⟨ws.map (fun w => |w|), false, r % ws.length⟩) ∧
    (∀ (ws ws' : List ℚ) (r : ℕ), ws.map (fun w => |w|) = ws'.map (fun w => |w|) →
      polarChoose ws r = polarChoose ws' r) ∧
    (∀ (w : ℚ) (s : ℤ), s = 1 ∨ s = -1 → (polarSignUpdate w s = -s ↔ w < 0)) ∧
    (polarSignUpdate (-1) 1 = -1 ∧ polarSignUpdate (-1) (-1) = 1) := by
  refine ⟨?_, ?_, ?_, by decide⟩
  · intro ws r h
    rw [polarChoose, randomChoicesW]
    rw [if_neg (by exact not_le.mpr h), if_neg (by exact not_le.mpr h)]
    rw [List.length_map]
  · intro ws ws' r h
    have hlen : ws.length = ws'.length := by
      have := congrArg List.length h
      simpa using this
    rw [polarChoose, polarChoose, h, hlen]
  · intro w s hs
    rw [polarSignUpdate]
    constructor
    · intro h
      by_contra hneg
      rw [if_neg hneg] at h
      rcases hs with h1 | h1 <;> omega
    · intro h
      rw [if_pos h]

/-- Witness for C7 at a concrete input. -/
theorem claim_C7_witness :
    polarChoose [(-1 : ℚ)] 0 = Except.ok ⟨[1], false, 0⟩ := by
  have h := claim_C7.1 [(-1 : ℚ)] 0 (by norm_num)
  simpa using h

theorem samplerPick_ok (ws : List ℚ) (r : ℕ) :
    ∃ j b, samplerPick ws r = Except.ok (j, b) := by
  by_cases h : ws.sum ≤ 0 <;> simp [samplerPick, randomChoicesW, h]

theorem polarChoose_ok (ws : List ℚ) (r : ℕ) :
    ∃ pk, polarChoose ws r = Except.ok pk := by
  by_cases h : (ws.map (fun w => |w|)).sum ≤ 0 <;>
    simp [polarChoose, randomChoicesW, h]

theorem headD_set_of_pos (l : List ℕ) (i a : ℕ) (h : 1 ≤ i) :
    (l.set i a).headD 0 = l.headD 0 := by
  cases l <;> cases i <;> simp_all [List.set]

/-- Totality and frame conditions of the normal-mode walk loop: it never
raises, the row keeps its length, and (when the loop starts at position
`i ≥ 1`) the seed written at position 0 is never overwritten. -/
theorem walkLoop_ok (G : WGraph) (pInv qInv : ℚ) (picks : ℕ → ℕ) :
    ∀ (fuel i current : ℕ) (lastO : Option ℕ) (row : List ℕ),
    ∃ row', walkLoop G pInv qInv picks i fuel current lastO row = Except.ok row' ∧
      row'.length = row.length ∧ (1 ≤ i → row'.headD 0 = row.headD 0) := by
  intro fuel
  induction fuel with
  | zero =>
    intro i current lastO row
    exact ⟨row, rfl, rfl, fun _ => rfl⟩
  | succ n ih =>
    intro i current lastO row
    simp only [walkLoop]
    cases hn : (neighbors G current).isEmpty with
    | true => exact ⟨row, by simp, rfl, fun _ => rfl⟩
    | false =>
      obtain ⟨j, b, hs⟩ := samplerPick_ok (adjustedWeights G pInv qInv current lastO) (picks i)
      obtain ⟨row', h1, h2, h3⟩ := ih (i + 1) ((neighbors G current).getD j 0)
        (some current) (row.set i ((neighbors G current).getD j 0))
      refine ⟨row', ?_, ?_, ?_⟩
      · simp only [hn, Bool.false_eq_true, if_false, hs, h1]
      · rw [h2, List.length_set]
      · intro hi
        rw [h3 (by omega), headD_set_of_pos _ _ _ hi]

/-- Totality and frame conditions of the polar walk loop: it never raises,
both rows keep their length, and when `positive_count ≥ 1` on entry it stays
`≥ 1` and the positive row's first entry is never overwritten. -/
theorem polarLoop_ok (G : WGraph) (pInv qInv : ℚ) (picks : ℕ → ℕ) :
    ∀ (fuel i : ℕ) (st : PolarState),
    ∃ st', polarLoop G pInv qInv picks i fuel st = Except.ok st' ∧
      st'.posRow.length = st.posRow.length ∧
      st'.negRow.length = st.negRow.length ∧
      (1 ≤ st.posCount →
        1 ≤ st'.posCount ∧ st'.posRow.headD 0 = st.posRow.headD 0) := by
  intro fuel
  induction fuel with
  | zero =>
    intro i st
    exact ⟨st, rfl, rfl, rfl, fun _ => ⟨by omega, rfl⟩⟩
  | succ n ih =>
    intro i st
    simp only [polarLoop, polarStep]
    cases hn : (neighbors G st.current).isEmpty with
    | true => exact ⟨st, by simp, rfl, rfl, fun _ => ⟨by omega, rfl⟩⟩
    | false =>
      obtain ⟨pk, hpk⟩ := polarChoose_ok (adjustedWeights G pInv qInv st.current st.last) (picks i)
      simp only [hn, Bool.false_eq_true, if_false, hpk]
      set ws := adjustedWeights G pInv qInv st.current st.last with hws
      by_cases hsgn : polarSignUpdate (ws.getD pk.idx 0) st.sign > 0
      · rw [if_pos hsgn]
        obtain ⟨st', h1, h2, h3, h4⟩ := ih (i + 1)
          { current := (neighbors G st.current).getD pk.idx 0
            last := some st.current
            sign := polarSignUpdate (ws.getD pk.idx 0) st.sign
            posRow := st.posRow.set st.posCount ((neighbors G st.current).getD pk.idx 0)
            posCount := st.posCount + 1
            negRow := st.negRow
            negCount := st.negCount }
        refine ⟨st', h1, ?_, h3, ?_⟩
        · rw [h2]; exact List.length_set ..
        · intro hpc
          obtain ⟨hc, hh⟩ := h4 (by simp)
          refine ⟨by simpa using hc, ?_⟩
          rw [hh]; exact headD_set_of_pos _ _ _ hpc
      · rw [if_neg hsgn]
        obtain ⟨st', h1, h2, h3, h4⟩ := ih (i + 1)
          { current := (neighbors G st.current).getD pk.idx 0
            last := some st.current
            sign := polarSignUpdate (ws.getD pk.idx 0) st.sign
            posRow := st.posRow
            posCount := st.posCount
            negRow := st.negRow.set st.negCount ((neighbors G st.current).getD pk.idx 0)
            negCount := st.negCount + 1 }
        refine ⟨st', h1, h2, ?_, ?_⟩
        · rw [h3]; exact List.length_set ..
        · intro hpc
          exact h4 (by simpa using hpc)

/-- **C9** — When the adjusted weights of a step sum to `≤ 0` (normal mode),
or their absolute values do (polar mode), the sampler falls back to a
uniform random choice among the neighbors with the diagnostic flag set; and
both walk loops always terminate with `Except.ok`, preserving the
fixed-length buffers — no exception, no stall. -/
theorem claim_C9 :
    (∀ (ws : List ℚ) (r : ℕ), ws.sum ≤ 0 →
      samplerPick ws r = Except.ok (r % ws.length, true)) ∧
    (∀ (ws : List ℚ) (r : ℕ), (ws.map (fun w => |w|)).sum ≤ 0 →
      polarChoose ws r = Except.ok ⟨ws.map (fun w => |w|), true, r % ws.length⟩) ∧
    (∀ (G : WGraph) (pInv qInv : ℚ) (picks : ℕ → ℕ) (fuel i current : ℕ)
        (lastO : Option ℕ) (row : List ℕ),
      ∃ row', walkLoop G pInv qInv picks i fuel current lastO row = Except.ok row' ∧
        row'.length = row.length) ∧
    (∀ (G : WGraph) (pInv qInv : ℚ) (picks : ℕ → ℕ) (fuel i : ℕ) (st : PolarState),
      ∃ st', polarLoop G pInv qInv picks i fuel st = Except.ok st' ∧
        st'.posRow.length = st.posRow.length ∧
        st'.negRow.length = st.negRow.length) := by
  refine ⟨?_, ?_, ?_, ?_⟩
  · intro ws r h
    simp [samplerPick, h]
  · intro ws r h
    simp [polarChoose, h]
  · intro G pInv qInv picks fuel i current lastO row
    obtain ⟨row', h1, h2, _⟩ := walkLoop_ok G pInv qInv picks fuel i current lastO row
    exact ⟨row', h1, h2⟩
  · intro G pInv qInv picks fuel i st
    obtain ⟨st', h1, h2, h3, _⟩ := polarLoop_ok G pInv qInv picks fuel i st
    exact ⟨st', h1, h2, h3⟩

/-- Witness for C9: a node whose only neighbor has weight `0` takes the
uniform fallback, and the walk on that graph still completes a full
fixed-length buffer. -/
theorem claim_C9_witness :
    samplerPick [(0 : ℚ)] 0 = Except.ok (0, true) ∧
    (∃ row', walkLoop ⟨[(1, 2, 0)]⟩ 1 1 (fun _ => 0) 1 3 1 none
        ((List.replicate 4 0).set 0 1) = Except.ok row' ∧ row'.length = 4) := by
  constructor
  · simpa using claim_C9.1 [(0 : ℚ)] 0 (by norm_num)
  · obtain ⟨row', h1, h2⟩ := claim_C9.2.2.1 ⟨[(1, 2, 0)]⟩ 1 1 (fun _ => 0) 3 1 1 none
      ((List.replicate 4 0).set 0 1)
    exact ⟨row', h1, by simpa using h2⟩

theorem range_map_getD_comp {α β : Type} (l : List α) (f : α → β) (d : α) :
    (List.range l.length).map (fun i => f (l.getD i d)) = l.map f := by
  refine List.ext_getElem (by simp) ?_
  intro i h1 h2
  simp only [List.getElem_map, List.getElem_range]
  rw [List.getD_eq_getElem l d (by simpa using h2)]

theorem range_map_getD {α : Type} (l : List α) (d : α) :
    (List.range l.length).map (fun i => l.getD i d) = l := by
  have h := range_map_getD_comp l id d
  simpa using h

theorem dedupKeepFirst_nodup_aux (l : List ℕ) :
    ∀ acc : List ℕ, acc.Nodup →
      (l.foldl (fun acc x => if x ∈ acc then acc else acc ++ [x]) acc).Nodup := by
  induction l with
  | nil => intro acc h; exact h
  | cons x xs ih =>
    intro acc h
    simp only [List.foldl]
    by_cases hx : x ∈ acc
    · rw [if_pos hx]; exact ih acc h
    · rw [if_neg hx]
      refine ih _ ?_
      simp [List.nodup_append, h, hx]

theorem dedupKeepFirst_nodup (l : List ℕ) : (dedupKeepFirst l).Nodup :=
  dedupKeepFirst_nodup_aux l [] List.nodup_nil

/-- **C10** — When `n_samples` equals the number of graph nodes (which is
what `n_samples = -1` resolves to), the start nodes are
`node_list[indices[n]]` for a random permutation `indices`, so each worker
uses every node of the graph as a walk's start node exactly once: the start
list is a permutation of the (duplicate-free) node list.  `startNodes` is
the start-selection used by both `output_edges` and `output_polar_edges`. -/
theorem claim_C10 :
    (∀ (nodeList perm : List ℕ) (sp : ℕ → ℕ),
      perm.Perm (List.range nodeList.length) →
      (startNodes nodeList nodeList.length perm sp).Perm nodeList) ∧
    (∀ G : WGraph, (nodeListOf G).Nodup) ∧
    (∀ nodeList : List ℕ, resolveNSamples (-1) nodeList = nodeList.length) := by
  refine ⟨?_, ?_, ?_⟩
  · intro nodeList perm sp hperm
    have hlen : perm.length = nodeList.length := by
      simpa using hperm.length_eq
    have hstart : startNodes nodeList nodeList.length perm sp =
        perm.map (fun j => nodeList.getD j 0) := by
      have h1 : startNodes nodeList nodeList.length perm sp =
          (List.range perm.length).map (fun k => nodeList.getD (perm.getD k 0) 0) := by
        rw [hlen]; simp [startNodes]
      rw [h1]
      exact range_map_getD_comp perm (fun j => nodeList.getD j 0) 0
    rw [hstart]
    have h2 := hperm.map (fun j => nodeList.getD j 0)
    rw [range_map_getD nodeList 0] at h2
    exact h2
  · intro G
    exact dedupKeepFirst_nodup _
  · intro nodeList
    rfl

/-- Witness for C10 at a concrete graph and permutation. -/
theorem claim_C10_witness :
    (startNodes [5, 7] 2 [1, 0] (fun _ => 0)).Perm [5, 7] :=
  claim_C10.1 [5, 7] [1, 0] (fun _ => 0) (by decide)

theorem getD_range (n k : ℕ) (h : k < n) : (List.range n).getD k 0 = k := by
  rw [List.getD_eq_getElem _ _ (by simpa using h)]
  exact List.getElem_range _ _

theorem exceptMap_forall₂ {α β : Type} (f : α → Except String β) (P : α → β → Prop) :
    ∀ l : List α, (∀ a ∈ l, ∃ b, f a = Except.ok b ∧ P a b) →
    ∃ bs, exceptMap f l = Except.ok bs ∧ List.Forall₂ P l bs := by
  intro l
  induction l with
  | nil => intro _; exact ⟨[], rfl, List.Forall₂.nil⟩
  | cons a l ih =>
    intro h
    obtain ⟨b, hb, hPb⟩ := h a (by simp)
    obtain ⟨bs, hbs, hF⟩ := ih (fun x hx => h x (by simp [hx]))
    refine ⟨b :: bs, ?_, List.Forall₂.cons hPb hF⟩
    rw [exceptMap, hb, hbs]

theorem forall₂_mem_right {α β : Type} {P : α → β → Prop} {l : List α} {bs : List β}
    (h : List.Forall₂ P l bs) : ∀ b ∈ bs, ∃ a ∈ l, P a b := by
  induction h with
  | nil => intro b hb; cases hb
  | cons hP _ ih =>
    intro b hb
    rcases List.mem_cons.mp hb with hb | hb
    · exact ⟨_, by simp, hb ▸ hP⟩
    · obtain ⟨a, ha, hPa⟩ := ih b hb
      exact ⟨a, by simp [ha], hPa⟩

theorem forall₂_getD {α β : Type} {P : α → β → Prop} {l : List α} {bs : List β}
    (h : List.Forall₂ P l bs) (da : α) (db : β) :
    ∀ k, k < l.length → P (l.getD k da) (bs.getD k db) := by
  induction h with
  | nil => intro k hk; simp at hk
  | cons hP hF ih =>
    intro k hk
    cases k with
    | zero => simpa using hP
    | succ m =>
      have := ih m (by simpa using Nat.lt_of_succ_lt_succ hk)
      simpa using this

theorem headD_replicate_set (m s : ℕ) (h : 1 ≤ m) :
    ((List.replicate m (0 : ℕ)).set 0 s).headD 0 = s := by
  cases m with
  | zero => omega
  | succ k => simp [List.replicate]

theorem length_replicate_set (m s : ℕ) :
    ((List.replicate m (0 : ℕ)).set 0 s).length = m := by
  rw [List.length_set, List.length_replicate]

/-- Shape of one polar walk: both track buffers have length `max_length`,
and the positive track starts with the seed. -/
theorem polarWalk_shape (G : WGraph) (pInv qInv : ℚ) (maxLen start : ℕ)
    (picks : ℕ → ℕ) :
    ∃ pr, polarWalk G pInv qInv maxLen start picks = Except.ok pr ∧
      pr.1.length = maxLen ∧ pr.2.length = maxLen ∧
      (1 ≤ maxLen → pr.1.headD 0 = start) := by
  obtain ⟨st', h1, h2, h3, h4⟩ := polarLoop_ok G pInv qInv picks (maxLen - 1) 1
    { current := start
      last := none
      sign := 1
      posRow := (List.replicate maxLen 0).set 0 start
      negRow := List.replicate maxLen 0
      posCount := 1
      negCount := 0 }
  refine ⟨(st'.posRow, st'.negRow), ?_, ?_, ?_, ?_⟩
  · rw [polarWalk, h1]
  · rw [h2]; exact length_replicate_set maxLen start
  · rw [h3]; exact List.length_replicate ..
  · intro hm
    obtain ⟨_, hh⟩ := h4 (by norm_num)
    rw [hh]
    exact headD_replicate_set maxLen start hm

/-- **C8 (amended)** — Every walk record is a fixed-length row of
`max_length` node ids.  In normal mode the shard has `n_samples` rows, each
beginning with its seed.  In polar mode the shard has shape
`(2·n_samples, max_length)`, row `n` (the positive track) begins with seed
`n`; the co-indexed negative track at row `n_samples + n` is filled
independently with the negatively-signed visits and does not in general
begin with a seed (see the counterexample). -/
theorem claim_C8 (G : WGraph) (pA qA : ℚ) (maxLen : ℕ) (nArg : ℤ)
    (perm : List ℕ) (sp : ℕ → ℕ) (picks : ℕ → ℕ → ℕ) (hML : 1 ≤ maxLen) :
    (∃ rows, output_edges G pA qA maxLen nArg perm sp picks = Except.ok rows ∧
      rows.length = resolveNSamples nArg (nodeListOf G) ∧
      (∀ row ∈ rows, row.length = maxLen) ∧
      (∀ k, k < rows.length → (rows.getD k []).headD 0 =
        (startNodes (nodeListOf G) (resolveNSamples nArg (nodeListOf G)) perm sp).getD k 0)) ∧
    (∃ shard, output_polar_edges G pA qA maxLen nArg perm sp picks = Except.ok shard ∧
      shard.length = 2 * resolveNSamples nArg (nodeListOf G) ∧
      (∀ row ∈ shard, row.length = maxLen) ∧
      (∀ k, k < resolveNSamples nArg (nodeListOf G) → (shard.getD k []).headD 0 =
        (startNodes (nodeListOf G) (resolveNSamples nArg (nodeListOf G)) perm sp).getD k 0)) := by
  constructor
  · obtain ⟨rows, hrows, hF⟩ := exceptMap_forall₂
      (fun k => walkLoop G (1 / pA) (1 / qA) (picks k) 1 (maxLen - 1)
        ((startNodes (nodeListOf G) (resolveNSamples nArg (nodeListOf G)) perm sp).getD k 0)
        none ((List.replicate maxLen 0).set 0
          ((startNodes (nodeListOf G) (resolveNSamples nArg (nodeListOf G)) perm sp).getD k 0)))
      (fun k row => row.length = maxLen ∧ row.headD 0 =
        (startNodes (nodeListOf G) (resolveNSamples nArg (nodeListOf G)) perm sp).getD k 0)
      (List.range (resolveNSamples nArg (nodeListOf G)))
      (by
        intro k _
        obtain ⟨row', h1, h2, h3⟩ := walkLoop_ok G (1 / pA) (1 / qA) (picks k) (maxLen - 1) 1
          ((startNodes (nodeListOf G) (resolveNSamples nArg (nodeListOf G)) perm sp).getD k 0)
          none ((List.replicate maxLen 0).set 0
            ((startNodes (nodeListOf G) (resolveNSamples nArg (nodeListOf G)) perm sp).getD k 0))
        refine ⟨row', h1, ?_, ?_⟩
        · rw [h2]; exact length_replicate_set ..
        · rw [h3 (by norm_num)]; exact headD_replicate_set _ _ hML)
    have hlen : rows.length = resolveNSamples nArg (nodeListOf G) := by
      have := hF.length_eq
      simpa using this.symm
    refine ⟨rows, hrows, hlen, ?_, ?_⟩
    · intro row hrow
      obtain ⟨a, _, hPa⟩ := forall₂_mem_right hF row hrow
      exact hPa.1
    · intro k hk
      have hk' : k < (List.range (resolveNSamples nArg (nodeListOf G))).length := by
        simpa [hlen] using hk
      have hP := (forall₂_getD hF 0 [] k hk').2
      rwa [getD_range _ _ (by simpa using hk')] at hP
  · obtain ⟨prs, hprs, hF⟩ := exceptMap_forall₂
      (fun k => polarWalk G (1 / pA) (1 / qA) maxLen
        ((startNodes (nodeListOf G) (resolveNSamples nArg (nodeListOf G)) perm sp).getD k 0)
        (picks k))
      (fun k pr => pr.1.length = maxLen ∧ pr.2.length = maxLen ∧ pr.1.headD 0 =
        (startNodes (nodeListOf G) (resolveNSamples nArg (nodeListOf G)) perm sp).getD k 0)
      (List.range (resolveNSamples nArg (nodeListOf G)))
      (by
        intro k _
        obtain ⟨pr, h1, h2, h3, h4⟩ := polarWalk_shape G (1 / pA) (1 / qA) maxLen
          ((startNodes (nodeListOf G) (resolveNSamples nArg (nodeListOf G)) perm sp).getD k 0)
          (picks k)
        exact ⟨pr, h1, h2, h3, h4 hML⟩)
    have hlen : prs.length = resolveNSamples nArg (nodeListOf G) := by
      have := hF.length_eq
      simpa using this.symm
    refine ⟨prs.map Prod.fst ++ prs.map Prod.snd, ?_, ?_, ?_, ?_⟩
    · rw [output_polar_edges, hprs]
    · simp only [List.length_append, List.length_map, hlen]; omega
    · intro row hrow
      rcases List.mem_append.mp hrow with hrow | hrow
    <;> obtain ⟨pr, hpr, rfl⟩ := List.mem_map.mp hrow
    <;> obtain ⟨a, _, hPa⟩ := forall₂_mem_right hF pr hpr
      · exact hPa.1
      · exact hPa.2.1
    · intro k hk
      have hk' : k < (List.range (resolveNSamples nArg (nodeListOf G))).length := by
        simpa using hk
      have hgd : (prs.map Prod.fst ++ prs.map Prod.snd).getD k [] =
          (prs.map Prod.fst).getD k [] := by
        have hklt : k < (prs.map Prod.fst).length := by
          simpa [hlen] using hk
        rw [List.getD_eq_getElem _ _ (by simp only [List.length_append, List.length_map, hlen]; omega),
          List.getD_eq_getElem _ _ hklt]
        exact List.getElem_append_left ..
      rw [hgd]
      have hP := forall₂_getD hF 0 ([], []) k hk'
      have hmap : (prs.map Prod.fst).getD k [] = (prs.getD k ([], [])).1 := by
        have hklt : k < prs.length := by simpa [hlen] using hk
        rw [List.getD_eq_getElem _ _ (by simpa using hklt),
          List.getD_eq_getElem _ _ hklt]
        simp
      rw [hmap]
      have hP2 := hP.2.2
      rwa [getD_range _ _ (by simpa using hk')] at hP2

/-- Witness for C8 at a concrete graph. -/
theorem claim_C8_witness :
    (∃ rows, output_edges ⟨[(1, 2, 1)]⟩ 1 1 2 1 [0] (fun _ => 0) (fun _ _ => 0) =
        Except.ok rows ∧
      rows.length = resolveNSamples 1 (nodeListOf ⟨[(1, 2, 1)]⟩) ∧
      (∀ row ∈ rows, row.length = 2) ∧
      (∀ k, k < rows.length → (rows.getD k []).headD 0 =
        (startNodes (nodeListOf ⟨[(1, 2, 1)]⟩) (resolveNSamples 1 (nodeListOf ⟨[(1, 2, 1)]⟩))
          [0] (fun _ => 0)).getD k 0)) ∧
    (∃ shard, output_polar_edges ⟨[(1, 2, 1)]⟩ 1 1 2 1 [0] (fun _ => 0) (fun _ _ => 0) =
        Except.ok shard ∧
      shard.length = 2 * resolveNSamples 1 (nodeListOf ⟨[(1, 2, 1)]⟩) ∧
      (∀ row ∈ shard, row.length = 2) ∧
      (∀ k, k < resolveNSamples 1 (nodeListOf ⟨[(1, 2, 1)]⟩) → (shard.getD k []).headD 0 =
        (startNodes (nodeListOf ⟨[(1, 2, 1)]⟩) (resolveNSamples 1 (nodeListOf ⟨[(1, 2, 1)]⟩))
          [0] (fun _ => 0)).getD k 0)) :=
  claim_C8 ⟨[(1, 2, 1)]⟩ 1 1 2 1 [0] (fun _ => 0) (fun _ _ => 0) (by norm_num)

/-- **C8 counterexample** — On the graph with single positive edge `1--2`,
one seed (`n_samples = 1`, seed node `1`), `max_length = 2`, the polar shard
is `[[1,2],[0,0]]`: the negative-track record (row 1, co-indexed with seed
row 0) has first element `0`, which differs from the only start node `1` —
so not every walk record in the shard begins with a start node. -/
theorem claim_C8_cex :
    output_polar_edges ⟨[(1, 2, 1)]⟩ 1 1 2 1 [0] (fun _ => 0) (fun _ _ => 0) =
      Except.ok [[1, 2], [0, 0]] ∧
    startNodes (nodeListOf ⟨[(1, 2, 1)]⟩) (resolveNSamples 1 (nodeListOf ⟨[(1, 2, 1)]⟩))
      [0] (fun _ => 0) = [1] ∧
    ([(0 : ℕ), 0].headD 0 = 0 ∧ (0 : ℕ) ∉ [1]) := by
  refine ⟨?_, ?_, by decide⟩
  · with_unfolding_all decide
  · with_unfolding_all decide

theorem exceptFold_ok_of (g : σ → α → Except String σ) :
    ∀ (l : List α) (s : σ), (∀ s' a, a ∈ l → ∃ s'', g s' a = Except.ok s'') →
    ∃ r, exceptFold g s l = Except.ok r := by
  intro l
  induction l with
  | nil => intro s _; exact ⟨s, rfl⟩
  | cons a l ih =>
    intro s h
    obtain ⟨s', hs'⟩ := h s a (by simp)
    obtain ⟨r, hr⟩ := ih s' (fun s'' b hb => h s'' b (by simp [hb]))
    refine ⟨r, ?_⟩
    rw [exceptFold, hs']
    exact hr

/-- **C4 (amended)** — The definition loader processes every line that has
at least one whitespace-separated field without raising (a line with only a
headword gets an empty definition); a fully empty line, however, raises
`IndexError` at `ar[0]` (see the counterexample). -/
theorem claim_C4 (lines : List (List Token)) (h : ∀ l ∈ lines, l ≠ []) :
    ∃ r, loadDefinitions lines = Except.ok r := by
  rw [loadDefinitions]
  apply exceptFold_ok_of
  intro s l hl
  cases hmatch : l with
  | nil => exact absurd hmatch (h l hl)
  | cons w ds => exact ⟨_, rfl⟩

/-- Witness for C4: a file whose lines all have at least one field,
including a one-field line, loads without raising. -/
theorem claim_C4_witness :
    ∃ r, loadDefinitions [["a", "b"], ["b"]] = Except.ok r :=
  claim_C4 [["a", "b"], ["b"]] (by decide)

/-- **C4 counterexample** — A definitions file containing an empty line
makes `generate_pairs` raise `IndexError` (from `ar[0]`) instead of
skipping the record. -/
theorem claim_C4_cex :
    generate_pairs [[]] EmbArg.noFile 0 =
      Except.error "IndexError: list index out of range" := rfl

theorem exceptFold_pure (g : σ → α → Except String σ) (f : σ → α → σ) :
    ∀ (l : List α), (∀ s a, a ∈ l → g s a = Except.ok (f s a)) →
    ∀ s, exceptFold g s l = Except.ok (l.foldl f s) := by
  intro l
  induction l with
  | nil => intro _ s; rfl
  | cons a l ih =>
    intro h s
    rw [exceptFold, h s a (by simp), List.foldl]
    exact ih (fun s' b hb => h s' b (by simp [hb])) (f s a)

theorem stepTokFull_zero (d : Dict) (e : EmbResult) (w t : Token) (acc : PairSets) :
    stepTokFull d e 0 w t acc = Except.ok (stepTok d w t acc) := by
  by_cases h1 : w = t
  · simp [stepTokFull, stepTok, h1]
  · by_cases h2 : mutualMem d w t <;> simp [stepTokFull, stepTok, h1, h2]

theorem stepTokFull_noemb (d : Dict) (e : EmbResult) (K : ℕ) (he : e.wordsToNum = [])
    (w t : Token) (acc : PairSets) :
    stepTokFull d e K w t acc = Except.ok (stepTok d w t acc) := by
  by_cases h1 : w = t
  · simp [stepTokFull, stepTok, h1]
  · by_cases h2 : mutualMem d w t <;>
      by_cases h3 : 0 < K <;>
      simp [stepTokFull, stepTok, h1, h2, h3, he, lookupW]

/-- When the augmentation has no usable embedding (either `K = 0` or
`wordsToNum` is empty) the classification loop computes exactly the natural
pair sets. -/
theorem genPairs_fold_natural (dict : Dict) (e : EmbResult) (K : ℕ)
    (hK : K = 0 ∨ e.wordsToNum = []) :
    exceptFold (fun acc wd =>
        exceptFold (fun a t => stepTokFull dict e K wd.1 t a) acc wd.2)
      (⟨∅, ∅⟩ : PairSets) dict = Except.ok (naturalPairs dict) := by
  rw [naturalPairs]
  apply exceptFold_pure
  intro acc wd _
  apply exceptFold_pure
  intro a t _
  rcases hK with hK | hK
  · rw [hK]; exact stepTokFull_zero dict e wd.1 t a
  · exact stepTokFull_noemb dict e K hK wd.1 t a

theorem pass2Line_matrix_length (vw : List Token) (d : ℕ) (st : P2State)
    (l : List Token) : (pass2Line vw d st l).matrix.length = st.matrix.length := by
  cases l with
  | nil => rfl
  | cons w rest =>
    cases rest with
    | nil => rfl
    | cons x xs =>
      by_cases h1 : w ∈ vw
      · by_cases h2 : (x :: xs).all (fun t => (pyFloat? t).isSome)
        · simp only [pass2Line, if_pos h1, if_pos h2]
          split
          · simp [List.length_set]
          · rfl
        · simp [pass2Line, h1, h2]
      · simp [pass2Line, h1]

theorem pass2Line_nilvw (d : ℕ) (st : P2State) (l : List Token) :
    pass2Line [] d st l = st := by
  cases l with
  | nil => rfl
  | cons w rest =>
    cases rest with
    | nil => rfl
    | cons x xs => simp [pass2Line]

theorem pass2_fold_matrix_length (vw : List Token) (d : ℕ) :
    ∀ (ls : List (List Token)) (st : P2State),
    ((ls.foldl (pass2Line vw d) st).matrix.length = st.matrix.length) := by
  intro ls
  induction ls with
  | nil => intro st; rfl
  | cons l ls ih =>
    intro st
    rw [List.foldl, ih, pass2Line_matrix_length]

theorem pass2_matrix_length (vw : List Token) (d : ℕ) (lines : List (List Token)) :
    (pass2 vw d lines).matrix.length = vw.length := by
  rw [pass2]
  rw [pass2_fold_matrix_length]
  split_ifs with h1 h2 <;>
    simp [pass2Line_matrix_length, List.length_replicate]

/-- A run of `loadEmbedding` that produced an empty matrix loaded zero valid
words: the word map is empty and the no-valid-embeddings warning is
emitted. -/
theorem loadEmbedding_empty (lines : List (List Token)) (lw : List Token) (r : EmbResult)
    (hok : loadEmbedding (some lines) lw = Except.ok r) (hm : r.matrix = []) :
    r.wordsToNum = [] ∧ r.warnings = ["Warning: No valid embeddings found!"] := by
  rw [loadEmbedding] at hok
  cases hp : pass1 lw lines with
  | error e => rw [hp] at hok; cases hok
  | ok vd =>
    obtain ⟨vw, d⟩ := vd
    rw [hp] at hok
    have hr := (Except.ok.injEq _ _).mp hok
    have hlen : vw.length = 0 := by
      have h1 : r.matrix = (pass2 vw d lines).matrix := by rw [← hr]
      have := pass2_matrix_length vw d lines
      rw [← h1, hm] at this
      simpa using this.symm
    have hvw : vw = [] := List.length_eq_zero.mp hlen
    subst hvw
    constructor
    · have h2 : r.wordsToNum = (pass2 [] d lines).w2n := by rw [← hr]
      rw [h2, pass2]
      have hfold : ∀ (ls : List (List Token)) (st : P2State),
          ls.foldl (pass2Line [] d) st = st := by
        intro ls
        induction ls with
        | nil => intro st; rfl
        | cons l ls ih => intro st; rw [List.foldl, pass2Line_nilvw]; exact ih st
      rw [hfold]
      split_ifs <;> simp [pass2Line_nilvw]
    · have h3 : r.warnings = if 0 < ([] : List Token).length then []
          else ["Warning: No valid embeddings found!"] := by rw [← hr]
      simpa using h3

/-- **C5 (amended)** — When `K > 0` and *no embedding filename* is given,
`generate_pairs` degrades to natural strong pairs only, logs the warning and
completes with `K` reset to `0`; when a readable embedding file yields zero
valid vectors, it continues with natural pairs only and the
no-valid-embeddings warning.  (A *filename pointing to a missing file*
instead aborts: see the counterexample.) -/
theorem claim_C5 :
    (∀ (defLines : List (List Token)) (K : ℕ) (dict : Dict) (uniq : List Token),
      0 < K → loadDefinitions defLines = Except.ok (dict, uniq) →
      generate_pairs defLines EmbArg.noFile K =
        Except.ok ⟨(naturalPairs dict).strong, (naturalPairs dict).weak,
          [warnNoEmbFile], 0⟩) ∧
    (∀ (defLines embLines : List (List Token)) (K : ℕ) (dict : Dict)
        (uniq : List Token) (r : EmbResult),
      0 < K → loadDefinitions defLines = Except.ok (dict, uniq) →
      loadEmbedding (some embLines) uniq = Except.ok r → r.matrix = [] →
      generate_pairs defLines (EmbArg.file embLines) K =
        Except.ok ⟨(naturalPairs dict).strong, (naturalPairs dict).weak,
          ["Warning: No valid embeddings found!"], K⟩) := by
  constructor
  · intro defLines K dict uniq hK hdefs
    simp only [generate_pairs, hdefs, if_pos hK]
    rw [genPairs_fold_natural dict emptyEmb 0 (Or.inl rfl)]
  · intro defLines embLines K dict uniq r hK hdefs hemb hm
    obtain ⟨hw2n, hwarn⟩ := loadEmbedding_empty embLines uniq r hemb hm
    simp only [generate_pairs, hdefs, if_pos hK, hemb]
    rw [genPairs_fold_natural dict r K (Or.inr hw2n), hwarn]

/-- Witness for C5: degrading on a missing `-e` option at a concrete input. -/
theorem claim_C5_witness :
    generate_pairs [["a", "b"], ["b", "a"]] EmbArg.noFile 1 =
      Except.ok ⟨(naturalPairs [("a", ["b"]), ("b", ["a"])]).strong,
        (naturalPairs [("a", ["b"]), ("b", ["a"])]).weak, [warnNoEmbFile], 0⟩ :=
  claim_C5.1 [["a", "b"], ["b", "a"]] 1 [("a", ["b"]), ("b", ["a"])] ["a", "b"]
    (by norm_num) rfl

/-- **C5 counterexample** — With `K > 0` and an embedding *path to an absent
file*, `open` raises `FileNotFoundError`, `loadEmbedding`'s handler
re-raises it, and the run aborts instead of degrading. -/
theorem claim_C5_cex :
    generate_pairs [["a", "b"], ["b", "a"]] EmbArg.missing 1 =
      Except.error "FileNotFoundError" := rfl

theorem ordPair_fst_lt_snd (a b : Token) (h : a ≠ b) :
    (ordPair a b).1 < (ordPair a b).2 := by
  rw [ordPair]
  split_ifs with hle
  · exact lt_of_le_of_ne hle h
  · exact lt_of_not_le hle

theorem ordPair_eq_cases (w t w' t' : Token) (h : ordPair w t = ordPair w' t') :
    (w' = w ∧ t' = t) ∨ (w' = t ∧ t' = w) := by
  rw [ordPair, ordPair] at h
  split_ifs at h <;>
    obtain ⟨e1, e2⟩ := Prod.mk.injEq .. ▸ h
  · exact Or.inl ⟨e1.symm, e2.symm⟩
  · exact Or.inr ⟨e2.symm, e1.symm⟩
  · exact Or.inr ⟨e1.symm, e2.symm⟩
  · exact Or.inl ⟨e2.symm, e1.symm⟩

theorem stepTok_strong_mem (d : Dict) (w t : Token) (acc : PairSets)
    (q : Token × Token) :
    q ∈ (stepTok d w t acc).strong ↔
      q ∈ acc.strong ∨ (w ≠ t ∧ mutualMem d w t = true ∧ q = ordPair w t) := by
  by_cases h1 : w = t
  · simp [stepTok, h1]
  · by_cases h2 : mutualMem d w t
    · simp [stepTok, h1, h2, Finset.mem_insert]
      tauto
    · simp [stepTok, h1, h2]

theorem stepTok_weak_mem (d : Dict) (w t : Token) (acc : PairSets)
    (q : Token × Token) :
    q ∈ (stepTok d w t acc).weak ↔
      q ∈ acc.weak ∨ (w ≠ t ∧ mutualMem d w t = false ∧ q = ordPair w t) := by
  by_cases h1 : w = t
  · simp [stepTok, h1]
  · by_cases h2 : mutualMem d w t
    · simp [stepTok, h1, h2]
    · simp [stepTok, h1, h2, Finset.mem_insert]
      tauto

theorem innerFold_strong_mem (d : Dict) (w : Token) :
    ∀ (ts : List Token) (acc : PairSets) (q : Token × Token),
    q ∈ ((ts.foldl (fun a t => stepTok d w t a) acc).strong) ↔
      q ∈ acc.strong ∨ ∃ t ∈ ts, w ≠ t ∧ mutualMem d w t = true ∧ q = ordPair w t := by
  intro ts
  induction ts with
  | nil => intro acc q; simp
  | cons t ts ih =>
    intro acc q
    rw [List.foldl, ih, stepTok_strong_mem]
    simp only [List.mem_cons]
    constructor
    · rintro ((h | h) | ⟨t', ht', h⟩)
      · exact Or.inl h
      · exact Or.inr ⟨t, Or.inl rfl, h⟩
      · exact Or.inr ⟨t', Or.inr ht', h⟩
    · rintro (h | ⟨t', (rfl | ht'), h⟩)
      · exact Or.inl (Or.inl h)
      · exact Or.inl (Or.inr h)
      · exact Or.inr ⟨t', ht', h⟩

theorem innerFold_weak_mem (d : Dict) (w : Token) :
    ∀ (ts : List Token) (acc : PairSets) (q : Token × Token),
    q ∈ ((ts.foldl (fun a t => stepTok d w t a) acc).weak) ↔
      q ∈ acc.weak ∨ ∃ t ∈ ts, w ≠ t ∧ mutualMem d w t = false ∧ q = ordPair w t := by
  intro ts
  induction ts with
  | nil => intro acc q; simp
  | cons t ts ih =>
    intro acc q
    rw [List.foldl, ih, stepTok_weak_mem]
    simp only [List.mem_cons]
    constructor
    · rintro ((h | h) | ⟨t', ht', h⟩)
      · exact Or.inl h
      · exact Or.inr ⟨t, Or.inl rfl, h⟩
      · exact Or.inr ⟨t', Or.inr ht', h⟩
    · rintro (h | ⟨t', (rfl | ht'), h⟩)
      · exact Or.inl (Or.inl h)
      · exact Or.inl (Or.inr h)
      · exact Or.inr ⟨t', ht', h⟩

theorem natural_strong_mem (d : Dict) (q : Token × Token) :
    q ∈ (naturalPairs d).strong ↔
      ∃ wd ∈ d, ∃ t ∈ wd.2, wd.1 ≠ t ∧ mutualMem d wd.1 t = true ∧
        q = ordPair wd.1 t := by
  rw [naturalPairs]
  have hgen : ∀ (entries : Dict) (acc : PairSets),
      q ∈ ((entries.foldl (fun acc wd =>
          wd.2.foldl (fun a t => stepTok d wd.1 t a) acc) acc).strong) ↔
        q ∈ acc.strong ∨ ∃ wd ∈ entries, ∃ t ∈ wd.2, wd.1 ≠ t ∧
          mutualMem d wd.1 t = true ∧ q = ordPair wd.1 t := by
    intro entries
    induction entries with
    | nil => intro acc; simp
    | cons wd entries ih =>
      intro acc
      rw [List.foldl, ih, innerFold_strong_mem]
      simp only [List.mem_cons]
      constructor
      · rintro ((h | ⟨t, ht, h⟩) | ⟨wd', hwd', h⟩)
        · exact Or.inl h
        · exact Or.inr ⟨wd, Or.inl rfl, t, ht, h⟩
        · exact Or.inr ⟨wd', Or.inr hwd', h⟩
      · rintro (h | ⟨wd', (rfl | hwd'), h⟩)
        · exact Or.inl (Or.inl h)
        · exact Or.inl (Or.inr h)
        · exact Or.inr ⟨wd', hwd', h⟩
  rw [hgen]
  simp

theorem natural_weak_mem (d : Dict) (q : Token × Token) :
    q ∈ (naturalPairs d).weak ↔
      ∃ wd ∈ d, ∃ t ∈ wd.2, wd.1 ≠ t ∧ mutualMem d wd.1 t = false ∧
        q = ordPair wd.1 t := by
  rw [naturalPairs]
  have hgen : ∀ (entries : Dict) (acc : PairSets),
      q ∈ ((entries.foldl (fun acc wd =>
          wd.2.foldl (fun a t => stepTok d wd.1 t a) acc) acc).weak) ↔
        q ∈ acc.weak ∨ ∃ wd ∈ entries, ∃ t ∈ wd.2, wd.1 ≠ t ∧
          mutualMem d wd.1 t = false ∧ q = ordPair wd.1 t := by
    intro entries
    induction entries with
    | nil => intro acc; simp
    | cons wd entries ih =>
      intro acc
      rw [List.foldl, ih, innerFold_weak_mem]
      simp only [List.mem_cons]
      constructor
      · rintro ((h | ⟨t, ht, h⟩) | ⟨wd', hwd', h⟩)
        · exact Or.inl h
        · exact Or.inr ⟨wd, Or.inl rfl, t, ht, h⟩
        · exact Or.inr ⟨wd', Or.inr hwd', h⟩
      · rintro (h | ⟨wd', (rfl | hwd'), h⟩)
        · exact Or.inl (Or.inl h)
        · exact Or.inl (Or.inr h)
        · exact Or.inr ⟨wd', hwd', h⟩
  rw [hgen]
  simp

theorem updDict_nodupKeys (d : Dict) (w : Token) (ds : List Token)
    (h : (d.map Prod.fst).Nodup) : ((updDict d w ds).map Prod.fst).Nodup := by
  rw [updDict]
  split_ifs with hany
  · have : (d.map (fun p => if p.1 == w then (w, ds) else p)).map Prod.fst =
        d.map Prod.fst := by
      rw [List.map_map]
      apply List.map_congr_left
      intro p _
      by_cases hp : p.1 = w
      · simp [hp]
      · simp [hp]
    rwa [this]
  · have hw : w ∉ d.map Prod.fst := by
      intro hmem
      obtain ⟨p, hp, hp1⟩ := List.mem_map.mp hmem
      apply hany
      rw [List.any_eq_true]
      exact ⟨p, hp, by simp [hp1]⟩
    simp [List.nodup_append, h, hw]

theorem loadDefinitions_nodupKeys :
    ∀ (lines : List (List Token)) (st : Dict × List Token) (d : Dict) (u : List Token),
    (st.1.map Prod.fst).Nodup →
    exceptFold defLineStep st lines = Except.ok (d, u) → (d.map Prod.fst).Nodup := by
  intro lines
  induction lines with
  | nil =>
    intro st d u hnd h
    rw [exceptFold] at h
    obtain ⟨h1, _⟩ := Prod.mk.injEq .. ▸ (Except.ok.injEq _ _).mp h
    rwa [← h1]
  | cons l lines ih =>
    intro st d u hnd h
    cases l with
    | nil =>
      rw [exceptFold] at h
      cases h
    | cons w ds =>
      rw [exceptFold] at h
      exact ih _ d u (updDict_nodupKeys st.1 w ds hnd) h

theorem lookupD_mem_nodup (d : Dict) (w : Token) (ds : List Token)
    (hnd : (d.map Prod.fst).Nodup) (hmem : (w, ds) ∈ d) :
    lookupD d w = some ds := by
  induction d with
  | nil => cases hmem
  | cons p d ih =>
    rcases List.mem_cons.mp hmem with hp | hp
    · rw [← hp, lookupD]
      simp
    · have hne : p.1 ≠ w := by
        intro he
        have : w ∈ d.map Prod.fst := List.mem_map.mpr ⟨(w, ds), hp, rfl⟩
        rw [← he] at this
        exact (List.nodup_cons.mp (by simpa using hnd)).1 this
      rw [lookupD]
      simp only [List.find?]
      rw [show (p.1 == w) = false from beq_eq_false_iff_ne.mpr hne]
      exact ih (List.nodup_cons.mp (by simpa using hnd)).2 hp

/-- **C1 (amended)** — With `K = 0` (no augmentation) the generated sets are
classification-disjoint: no pair is in both `strong` and `weak`, and every
stored edge `(a, b)` is canonical with `a < b` (so a pair appears in at most
one orientation and only with distinct endpoints).  With `K > 0` the
artificial strong pairs can land on pairs already classified weak — see the
counterexample — and the source never removes them from `weak`. -/
theorem claim_C1 (defLines : List (List Token)) (emb : EmbArg) (out : GenOut)
    (h : generate_pairs defLines emb 0 = Except.ok out) :
    (∀ p, ¬(p ∈ out.strong ∧ p ∈ out.weak)) ∧
    (∀ p ∈ out.strong, p.1 < p.2) ∧
    (∀ p ∈ out.weak, p.1 < p.2) := by
  rw [generate_pairs] at h
  cases hdefs : loadDefinitions defLines with
  | error e => rw [hdefs] at h; cases h
  | ok du =>
    obtain ⟨dict, uniq⟩ := du
    rw [hdefs] at h
    simp only [lt_irrefl, if_false] at h
    rw [genPairs_fold_natural dict emptyEmb 0 (Or.inl rfl)] at h
    have hout := (Except.ok.injEq _ _).mp h
    have hstrong : out.strong = (naturalPairs dict).strong := by rw [← hout]
    have hweak : out.weak = (naturalPairs dict).weak := by rw [← hout]
    have hnd : (dict.map Prod.fst).Nodup :=
      loadDefinitions_nodupKeys defLines ([], []) dict uniq (by simp) hdefs
    refine ⟨?_, ?_, ?_⟩
    · rintro p ⟨hs, hw⟩
      rw [hstrong] at hs
      rw [hweak] at hw
      obtain ⟨wd, hwd, t, ht, hne, hmut, hq⟩ := (natural_strong_mem dict p).mp hs
      obtain ⟨wd', hwd', t', ht', hne', hmut', hq'⟩ := (natural_weak_mem dict p).mp hw
      rcases ordPair_eq_cases wd.1 t wd'.1 t' (by rw [← hq, ← hq']) with ⟨e1, e2⟩ | ⟨e1, e2⟩
      · rw [e1, e2, hmut] at hmut'
        cases hmut'
      · have hcoh : lookupD dict wd.1 = some wd.2 :=
          lookupD_mem_nodup dict wd.1 wd.2 hnd (by simpa using hwd)
        have : mutualMem dict wd'.1 t' = true := by
          rw [e1, e2, mutualMem, hcoh]
          simpa using ht
        rw [this] at hmut'
        cases hmut'
    · intro p hp
      rw [hstrong] at hp
      obtain ⟨wd, _, t, _, hne, _, hq⟩ := (natural_strong_mem dict p).mp hp
      rw [hq]
      exact ordPair_fst_lt_snd _ _ hne
    · intro p hp
      rw [hweak] at hp
      obtain ⟨wd, _, t, _, hne, _, hq⟩ := (natural_weak_mem dict p).mp hp
      rw [hq]
      exact ordPair_fst_lt_snd _ _ hne

/-- Witness for C1 at a concrete `K = 0` run. -/
theorem claim_C1_witness :
    ¬(("a", "b") ∈ (genOutOf (generate_pairs [["a", "b"], ["b", "a"]] EmbArg.noFile 0)).strong ∧
      ("a", "b") ∈ (genOutOf (generate_pairs [["a", "b"], ["b", "a"]] EmbArg.noFile 0)).weak) :=
  (claim_C1 [["a", "b"], ["b", "a"]] EmbArg.noFile
    (genOutOf (generate_pairs [["a", "b"], ["b", "a"]] EmbArg.noFile 0))
    (by with_unfolding_all decide)).1 ("a", "b")

/-- **C1 counterexample** — With `K = 1` and an embedding containing `b` and
`c`, the definitions `a: b c / b: a / c: d` put the pair `("a","c")` in
*both* the strong set (as an artificial pair, `c` being a nearest neighbor
of `b`) and the weak set (`a`–`c` is non-mutual), with `"a" ≠ "c"`. -/
theorem claim_C1_cex :
    ("a", "c") ∈ (genOutOf (generate_pairs [["a", "b", "c"], ["b", "a"], ["c", "d"]]
      (EmbArg.file [["b", "1", "0"], ["c", "0", "1"]]) 1)).strong ∧
    ("a", "c") ∈ (genOutOf (generate_pairs [["a", "b", "c"], ["b", "a"], ["c", "d"]]
      (EmbArg.file [["b", "1", "0"], ["c", "0", "1"]]) 1)).weak ∧
    ("a" : Token) ≠ "c" := by
  refine ⟨?_, ?_, by decide⟩ <;> with_unfolding_all decide

theorem mem_insertByVal (xs : List ℚ) (i : ℕ) :
    ∀ (l : List ℕ) (j : ℕ), j ∈ insertByVal xs i l ↔ j = i ∨ j ∈ l := by
  intro l
  induction l with
  | nil => intro j; simp [insertByVal]
  | cons k rest ih =>
    intro j
    rw [insertByVal]
    split_ifs
    · simp
    · simp only [List.mem_cons, ih]
      tauto

theorem length_insertByVal (xs : List ℚ) (i : ℕ) :
    ∀ l : List ℕ, (insertByVal xs i l).length = l.length + 1 := by
  intro l
  induction l with
  | nil => rfl
  | cons k rest ih =>
    rw [insertByVal]
    split_ifs <;> simp [ih]

theorem mem_sortFold (xs : List ℚ) :
    ∀ (l : List ℕ) (j : ℕ), j ∈ l.foldr (insertByVal xs) [] ↔ j ∈ l := by
  intro l
  induction l with
  | nil => intro j; simp
  | cons k rest ih =>
    intro j
    rw [List.foldr, mem_insertByVal]
    simp [ih]

theorem length_sortFold (xs : List ℚ) :
    ∀ l : List ℕ, (l.foldr (insertByVal xs) []).length = l.length := by
  intro l
  induction l with
  | nil => rfl
  | cons k rest ih =>
    rw [List.foldr, length_insertByVal, ih, List.length_cons]

theorem length_sortIdxDesc (xs : List ℚ) : (sortIdxDesc xs).length = xs.length := by
  rw [sortIdxDesc, length_sortFold, List.length_range]

theorem mem_sortIdxDesc (xs : List ℚ) (j : ℕ) :
    j ∈ sortIdxDesc xs ↔ j < xs.length := by
  rw [sortIdxDesc, mem_sortFold, List.mem_range]

theorem insertByVal_cons_of_lt (xs : List ℚ) (i : ℕ) (l : List ℕ)
    (h : ∀ k, l.head? = some k → xs.getD k 0 < xs.getD i 0) :
    insertByVal xs i l = i :: l := by
  cases l with
  | nil => rfl
  | cons k rest =>
    rw [insertByVal, if_pos (h k rfl)]

theorem insertByVal_head_preserved (xs : List ℚ) (i t : ℕ) (rest : List ℕ)
    (h : ¬ xs.getD t 0 < xs.getD i 0) :
    insertByVal xs i (t :: rest) = t :: insertByVal xs i rest := by
  rw [insertByVal, if_neg h]

/-- With a strict maximum at index `t`, the similarity-sorted index list
starts with `t`: the self-similarity row is always among the selected
`K+1`. -/
theorem sortFold_head_max (xs : List ℚ) (t : ℕ)
    (hmax : ∀ j, j < xs.length → j ≠ t → xs.getD j 0 < xs.getD t 0) :
    ∀ l : List ℕ, l.Nodup → (∀ j ∈ l, j < xs.length) → t ∈ l →
    ∃ rest, l.foldr (insertByVal xs) [] = t :: rest := by
  intro l
  induction l with
  | nil => intro _ _ ht; cases ht
  | cons a l ih =>
    intro hnd hbound ht
    rw [List.foldr]
    rcases List.mem_cons.mp ht with rfl | htl
    · refine ⟨l.foldr (insertByVal xs) [], ?_⟩
      apply insertByVal_cons_of_lt
      intro k hk
      have hkmem : k ∈ l.foldr (insertByVal xs) [] := List.mem_of_mem_head? hk
      have hkl : k ∈ l := (mem_sortFold xs l k).mp hkmem
      have hkt : k ≠ t := fun he => (List.nodup_cons.mp hnd).1 (he ▸ hkl)
      exact hmax k (hbound k (List.mem_cons_of_mem _ hkl)) hkt
    · obtain ⟨rest, hrest⟩ := ih (List.nodup_cons.mp hnd).2
        (fun j hj => hbound j (List.mem_cons_of_mem _ hj)) htl
      rw [hrest]
      have hat : a ≠ t := fun he => (List.nodup_cons.mp hnd).1 (he ▸ htl)
      have hlt : xs.getD a 0 < xs.getD t 0 := hmax a (hbound a (by simp)) hat
      rw [insertByVal_head_preserved xs a t rest (lt_asymm hlt)]
      exact ⟨insertByVal xs a rest, rfl⟩

theorem sortIdxDesc_head_max (xs : List ℚ) (t : ℕ) (ht : t < xs.length)
    (hmax : ∀ j, j < xs.length → j ≠ t → xs.getD j 0 < xs.getD t 0) :
    ∃ rest, sortIdxDesc xs = t :: rest := by
  rw [sortIdxDesc]
  exact sortFold_head_max xs t hmax (List.range xs.length) (List.nodup_range _)
    (fun j hj => List.mem_range.mp hj) (List.mem_range.mpr ht)

theorem forall₂_mem_left {α β : Type} {P : α → β → Prop} {l : List α} {bs : List β}
    (h : List.Forall₂ P l bs) : ∀ a ∈ l, ∃ b ∈ bs, P a b := by
  induction h with
  | nil => intro a ha; cases ha
  | cons hP _ ih =>
    intro a ha
    rcases List.mem_cons.mp ha with ha | ha
    · subst ha
      exact ⟨_, by simp, hP⟩
    · obtain ⟨b, hb, hPb⟩ := ih a ha
      exact ⟨b, by simp [hb], hPb⟩

/-- **C2 (amended)** — When the loaded vocabulary has at least `K+1` rows
and the token's row is the strict similarity maximum (the normalized
embedding guarantee when no other word carries an identical vector), the
augmentation step never emits the query token `T` itself and emits at most
`K` close words.  When the vocabulary is *smaller* than `K+1`, the source
does not return fewer neighbors: `np.argpartition` raises `ValueError` and
the run aborts (see the counterexample). -/
theorem claim_C2 (matrix : List (List ℚ)) (n2w : List (ℕ × Token)) (T : Token)
    (ti K : ℕ) (hti : ti < matrix.length) (hK : K + 1 ≤ matrix.length)
    (hlook : lookupN n2w ti = some T)
    (htot : ∀ i, i < matrix.length → (lookupN n2w i).isSome = true)
    (hmax : ∀ j, j < matrix.length → j ≠ ti →
      (simsOf matrix ti).getD j 0 < (simsOf matrix ti).getD ti 0) :
    ∃ cws, closeWords matrix n2w T ti K = Except.ok cws ∧ T ∉ cws ∧
      cws.length ≤ K := by
  have hsims_len : (simsOf matrix ti).length = matrix.length := by
    rw [simsOf, List.length_map]
  obtain ⟨rest, hsort⟩ := sortIdxDesc_head_max (simsOf matrix ti) ti
    (by omega) (by rw [hsims_len]; exact hmax)
  have hargpart : argpartTop (simsOf matrix ti) (K + 1) =
      Except.ok ((sortIdxDesc (simsOf matrix ti)).take (K + 1)) := by
    rw [argpartTop, if_neg (by omega)]
  have hsel_len : ((sortIdxDesc (simsOf matrix ti)).take (K + 1)).length = K + 1 := by
    rw [List.length_take, length_sortIdxDesc, hsims_len]
    omega
  have hsel_mem : ∀ j ∈ (sortIdxDesc (simsOf matrix ti)).take (K + 1),
      j < matrix.length := by
    intro j hj
    have := List.mem_of_mem_take hj
    rw [mem_sortIdxDesc, hsims_len] at this
    exact this
  have hti_sel : ti ∈ (sortIdxDesc (simsOf matrix ti)).take (K + 1) := by
    rw [hsort, List.take_succ_cons]
    simp
  obtain ⟨cws, hcws, hF⟩ := exceptMap_forall₂
    (fun i => match lookupN n2w i with
      | some w => Except.ok w
      | none => Except.error "KeyError")
    (fun i w => lookupN n2w i = some w)
    ((sortIdxDesc (simsOf matrix ti)).take (K + 1))
    (by
      intro i hi
      obtain ⟨w, hw⟩ := Option.isSome_iff_exists.mp (htot i (hsel_mem i hi))
      exact ⟨w, by dsimp only; rw [hw], hw⟩)
  have hcws_len : cws.length = K + 1 := by
    rw [← hF.length_eq, hsel_len]
  have hT_mem : T ∈ cws := by
    obtain ⟨w, hwmem, hP⟩ := forall₂_mem_left hF ti hti_sel
    rw [hlook] at hP
    obtain rfl := (Option.some.injEq _ _).mp hP.symm
    exact hwmem
  refine ⟨cws.filter (fun c => c ≠ T), ?_, ?_, ?_⟩
  · simp only [closeWords, hargpart, hcws]
  · intro hT
    simp at hT
  · have hlt : (cws.filter (fun c => c ≠ T)).length < cws.length := by
      rw [List.length_filter_lt_length_iff_exists]
      exact ⟨T, hT_mem, by simp⟩
    omega

/-- Witness for C2 at a concrete two-word embedding. -/
theorem claim_C2_witness :
    ∃ cws, closeWords [[1, 0], [0, 1]] [(0, "b"), (1, "c")] "b" 0 1 = Except.ok cws ∧
      "b" ∉ cws ∧ cws.length ≤ 1 :=
  claim_C2 [[1, 0], [0, 1]] [(0, "b"), (1, "c")] "b" 0 1
    (by norm_num) (by norm_num) (by with_unfolding_all decide)
    (by with_unfolding_all decide) (by with_unfolding_all decide)

/-- **C2 counterexample** — With `K = 2` and an embedding vocabulary of one
word (smaller than `K+1 = 3`), the augmentation does not return fewer
neighbors: `np.argpartition(cosine_sim, -(K+1))` raises `ValueError` and
`generate_pairs` aborts. -/
theorem claim_C2_cex :
    generate_pairs [["a", "b"], ["b", "a"]] (EmbArg.file [["b", "1", "0"]]) 2 =
      Except.error "ValueError: kth out of bounds" := by
  with_unfolding_all decide

theorem lookupN_enumN :
    ∀ (vs : List Token) (k i : ℕ),
    lookupN (enumN k vs) i = if k ≤ i then vs.get? (i - k) else none := by
  intro vs
  induction vs with
  | nil =>
    intro k i
    rw [enumN, lookupN]
    simp only [List.find?_nil, Option.map_none]
    split_ifs <;> simp
  | cons w ws ih =>
    intro k i
    rw [enumN, lookupN]
    by_cases hki : k = i
    · subst hki
      simp only [List.find?_cons, beq_self_eq_true]
      simp
    · have hbeq : ((k, w).1 == i) = false := by
        simpa using hki
      simp only [List.find?_cons, hbeq]
      have := ih (k + 1) i
      rw [lookupN] at this
      rw [this]
      by_cases hle : k ≤ i
      · have hlt : k < i := lt_of_le_of_ne hle hki
        rw [if_pos (by omega : k + 1 ≤ i), if_pos hle]
        have : i - k = (i - (k + 1)) + 1 := by omega
        rw [this]
        simp
      · rw [if_neg (by omega : ¬ k + 1 ≤ i), if_neg hle]

theorem lookupW_enumW_some :
    ∀ (vs : List Token) (k : ℕ) (w : Token) (i : ℕ),
    lookupW (enumW k vs) w = some i → ∃ j, i = k + j ∧ vs.get? j = some w := by
  intro vs
  induction vs with
  | nil =>
    intro k w i h
    rw [enumW, lookupW] at h
    simp at h
  | cons v ws ih =>
    intro k w i h
    rw [enumW, lookupW] at h
    by_cases hv : v = w
    · subst hv
      simp only [List.find?_cons, beq_self_eq_true] at h
      simp at h
      exact ⟨0, by omega, by simp⟩
    · have hbeq : ((v, k).1 == w) = false := by simpa using hv
      simp only [List.find?_cons, hbeq] at h
      obtain ⟨j, hj, hget⟩ := ih (k + 1) w i (by rw [lookupW]; exact h)
      exact ⟨j + 1, by omega, by simpa using hget⟩

theorem lookupW_enumW_nodup :
    ∀ (vs : List Token) (k : ℕ), vs.Nodup →
    ∀ (j : ℕ) (w : Token), vs.get? j = some w →
    lookupW (enumW k vs) w = some (k + j) := by
  intro vs
  induction vs with
  | nil =>
    intro k _ j w h
    simp at h
  | cons v ws ih =>
    intro k hnd j w hget
    rw [enumW, lookupW]
    cases j with
    | zero =>
      simp at hget
      subst hget
      simp only [List.find?_cons, beq_self_eq_true]
      simp
    | succ m =>
      simp only [List.get?_cons_succ] at hget
      have hw_mem : w ∈ ws := List.get?_mem hget
      have hv : v ≠ w := fun he => (List.nodup_cons.mp hnd).1 (he ▸ hw_mem)
      have hbeq : ((v, k).1 == w) = false := by simpa using hv
      simp only [List.find?_cons, hbeq]
      have := ih (k + 1) (List.nodup_cons.mp hnd).2 m w hget
      rw [lookupW] at this
      rw [this]
      congr 1
      omega

/-- **C6 counterexample** — A file listing the word `b` twice with two
different numeric vectors makes `loadEmbedding` return a 2-row matrix with
`numToWords = {0: b, 1: b}` but `wordsToNum = {b: 1}`: row `0`'s word maps
back to row `1`, so the word/row-index maps are not a bijection with the
matrix rows. -/
theorem claim_C6_cex :
    ¬ mapsBijective (embResOf (loadEmbedding
      (some [["b", "1", "0"], ["b", "0", "1"]]) ["b"])) := by
  intro h
  obtain ⟨w, hN, hW⟩ := h.1 0 (by with_unfolding_all decide)
  have h0 : lookupN (embResOf (loadEmbedding
      (some [["b", "1", "0"], ["b", "0", "1"]]) ["b"])).numToWords 0 = some "b" := by
    with_unfolding_all decide
  rw [h0] at hN
  obtain rfl : w = "b" := ((Option.some.injEq _ _).mp hN.symm)
  have h1 : lookupW (embResOf (loadEmbedding
      (some [["b", "1", "0"], ["b", "0", "1"]]) ["b"])).wordsToNum "b" = some 1 := by
    with_unfolding_all decide
  rw [h1] at hW
  have : (1 : ℕ) = 0 := (Option.some.injEq _ _).mp hW
  omega

theorem lineValidFor_cons (lw : List Token) (w : Token) (rest : List Token) :
    lineValidFor lw (w :: rest) = true ↔
      rest ≠ [] ∧ w ∈ lw ∧ ∀ t ∈ rest, (pyFloat? t).isSome = true := by
  rw [lineValidFor]
  simp

theorem scanValid_cons_valid (lw : List Token) (w : Token) (rest : List Token)
    (ls : List (List Token)) (h : lineValidFor lw (w :: rest) = true) :
    scanValid lw ((w :: rest) :: ls) = w :: scanValid lw ls := by
  rw [scanValid, scanValid, List.filter_cons, if_pos h, List.filterMap_cons]
  simp

theorem scanValid_cons_invalid (lw : List Token) (l : List Token)
    (ls : List (List Token)) (h : lineValidFor lw l = false) :
    scanValid lw (l :: ls) = scanValid lw ls := by
  rw [scanValid, scanValid, List.filter_cons]
  simp [h]

theorem scanValid_mem (lw : List Token) (ls : List (List Token)) (x : Token) :
    x ∈ scanValid lw ls ↔
      ∃ l ∈ ls, lineValidFor lw l = true ∧ l.head? = some x := by
  rw [scanValid]
  simp only [List.mem_filterMap, List.mem_filter]
  constructor
  · rintro ⟨l, ⟨hl, hv⟩, hh⟩
    exact ⟨l, hl, hv, hh⟩
  · rintro ⟨l, hl, hv, hh⟩
    exact ⟨l, ⟨hl, hv⟩, hh⟩

theorem scanValid_subset (lw : List Token) (ls : List (List Token)) (x : Token)
    (h : x ∈ scanValid lw ls) : x ∈ lw := by
  obtain ⟨l, _, hv, hh⟩ := (scanValid_mem lw ls x).mp h
  cases l with
  | nil => cases hh
  | cons w rest =>
    obtain rfl : w = x := by simpa using hh
    exact ((lineValidFor_cons lw w rest).mp hv).2.1

theorem enumN_append :
    ∀ (vs : List Token) (k : ℕ) (w : Token),
    enumN k (vs ++ [w]) = enumN k vs ++ [(k + vs.length, w)] := by
  intro vs
  induction vs with
  | nil => intro k w; simp [enumN]
  | cons v ws ih =>
    intro k w
    rw [List.cons_append, enumN, enumN, ih, List.cons_append]
    have he : k + 1 + ws.length = k + (v :: ws).length := by
      simp only [List.length_cons]
      omega
    rw [he]

theorem enumW_append :
    ∀ (vs : List Token) (k : ℕ) (w : Token),
    enumW k (vs ++ [w]) = enumW k vs ++ [(w, k + vs.length)] := by
  intro vs
  induction vs with
  | nil => intro k w; simp [enumW]
  | cons v ws ih =>
    intro k w
    rw [List.cons_append, enumW, enumW, ih, List.cons_append]
    have he : k + 1 + ws.length = k + (v :: ws).length := by
      simp only [List.length_cons]
      omega
    rw [he]

theorem enumN_fst_lt :
    ∀ (vs : List Token) (k : ℕ) (p : ℕ × Token), p ∈ enumN k vs →
    k ≤ p.1 ∧ p.1 < k + vs.length := by
  intro vs
  induction vs with
  | nil => intro k p hp; rw [enumN] at hp; cases hp
  | cons v ws ih =>
    intro k p hp
    rw [enumN] at hp
    rcases List.mem_cons.mp hp with rfl | hp
    · simp
    · have := ih (k + 1) p hp
      constructor <;> [omega; (simp only [List.length_cons]; omega)]

theorem enumW_fst_mem :
    ∀ (vs : List Token) (k : ℕ) (p : Token × ℕ), p ∈ enumW k vs → p.1 ∈ vs := by
  intro vs
  induction vs with
  | nil => intro k p hp; rw [enumW] at hp; cases hp
  | cons v ws ih =>
    intro k p hp
    rw [enumW] at hp
    rcases List.mem_cons.mp hp with rfl | hp
    · simp
    · exact List.mem_cons_of_mem _ (ih (k + 1) p hp)

theorem updAssocN_append (l : List (ℕ × Token)) (k : ℕ) (v : Token)
    (h : ∀ p ∈ l, p.1 ≠ k) : updAssocN l k v = l ++ [(k, v)] := by
  rw [updAssocN, if_neg]
  intro hany
  obtain ⟨p, hp, hbeq⟩ := List.any_eq_true.mp hany
  exact h p hp (by simpa using hbeq)

theorem updAssocW_append (l : List (Token × ℕ)) (k : Token) (v : ℕ)
    (h : ∀ p ∈ l, p.1 ≠ k) : updAssocW l k v = l ++ [(k, v)] := by
  rw [updAssocW, if_neg]
  intro hany
  obtain ⟨p, hp, hbeq⟩ := List.any_eq_true.mp hany
  exact h p hp (by simpa using hbeq)

theorem notMem_of_nodup_append {vs tl : List Token} {w : Token}
    (h : (vs ++ w :: tl).Nodup) : w ∉ vs := by
  intro hw
  have hd := (List.nodup_append.mp h).2.2
  exact hd hw (by simp)

/-- The second-pass invariant: processing the remaining lines starting from
the state that enumerates the already-seen valid words extends the
enumeration to all valid words, provided each included word appears on only
one valid line and every valid line's vector matches the matrix width. -/
theorem pass2_fold_inv (lw : List Token) (d : ℕ) (vw : List Token)
    (hnd : vw.Nodup) (hsub : ∀ x ∈ vw, x ∈ lw) :
    ∀ (ls : List (List Token)) (vs : List Token) (matrix : List (List ℚ)),
    vw = vs ++ scanValid lw ls →
    (∀ l ∈ ls, lineValidFor lw l = true → l.tail.length = d) →
    ∃ M, ls.foldl (pass2Line vw d) ⟨matrix, enumN 0 vs, enumW 0 vs, vs.length⟩ =
      ⟨M, enumN 0 vw, enumW 0 vw, vw.length⟩ ∧ M.length = matrix.length := by
  intro ls
  induction ls with
  | nil =>
    intro vs matrix hvw _
    rw [scanValid] at hvw
    simp only [List.filter_nil, List.filterMap_nil, List.append_nil] at hvw
    subst hvw
    exact ⟨matrix, rfl, rfl⟩
  | cons l ls ih =>
    intro vs matrix hvw hdim
    rw [List.foldl]
    cases hv : lineValidFor lw l with
    | false =>
      have hstep : pass2Line vw d ⟨matrix, enumN 0 vs, enumW 0 vs, vs.length⟩ l =
          ⟨matrix, enumN 0 vs, enumW 0 vs, vs.length⟩ := by
        cases l with
        | nil => rfl
        | cons w rest =>
          cases rest with
          | nil => rfl
          | cons x xs =>
            have hunfold : pass2Line vw d ⟨matrix, enumN 0 vs, enumW 0 vs, vs.length⟩
                (w :: x :: xs) =
                (if w ∈ vw then
                  (if (x :: xs).all (fun t => (pyFloat? t).isSome) then
                    (match rowAssign d ((x :: xs).map (fun t => (pyFloat? t).getD 0)) with
                    | some row =>
                      (⟨matrix.set vs.length row, updAssocN (enumN 0 vs) vs.length w,
                        updAssocW (enumW 0 vs) w vs.length, vs.length + 1⟩ : P2State)
                    | none => ⟨matrix, enumN 0 vs, enumW 0 vs, vs.length⟩)
                  else ⟨matrix, enumN 0 vs, enumW 0 vs, vs.length⟩)
                else ⟨matrix, enumN 0 vs, enumW 0 vs, vs.length⟩) := rfl
            rw [hunfold]
            by_cases hwv : w ∈ vw
            · rw [if_pos hwv]
              have hfl : ¬ ((x :: xs).all (fun t => (pyFloat? t).isSome) = true) := by
                intro hfl
                have : lineValidFor lw (w :: x :: xs) = true := by
                  rw [lineValidFor_cons]
                  exact ⟨by simp, hsub w hwv, by simpa [List.all_eq_true] using hfl⟩
                rw [this] at hv
                cases hv
              rw [if_neg hfl]
            · rw [if_neg hwv]
      rw [hstep]
      refine ih vs matrix ?_ (fun l' hl' => hdim l' (by simp [hl']))
      rwa [scanValid_cons_invalid lw l ls hv] at hvw
    | true =>
      cases l with
      | nil => rw [lineValidFor] at hv; cases hv
      | cons w rest =>
        obtain ⟨hne, hwlw, hfl⟩ := (lineValidFor_cons lw w rest).mp hv
        have hrest_len : rest.length = d := by
          simpa using hdim (w :: rest) (by simp) hv
        rw [scanValid_cons_valid lw w rest ls hv] at hvw
        have hwvw : w ∈ vw := by rw [hvw]; simp
        cases rest with
        | nil => exact absurd rfl hne
        | cons x xs =>
          have hall : (x :: xs).all (fun t => (pyFloat? t).isSome) = true := by
            rw [List.all_eq_true]
            intro t ht
            exact hfl t ht
          have hrow : rowAssign d ((x :: xs).map (fun t => (pyFloat? t).getD 0)) =
              some ((x :: xs).map (fun t => (pyFloat? t).getD 0)) := by
            rw [rowAssign, if_pos]
            rw [List.length_map]
            exact hrest_len
          have hN : updAssocN (enumN 0 vs) vs.length w = enumN 0 (vs ++ [w]) := by
            rw [updAssocN_append, enumN_append]
            · simp
            · intro p hp
              have := enumN_fst_lt vs 0 p hp
              omega
          have hW : updAssocW (enumW 0 vs) w vs.length = enumW 0 (vs ++ [w]) := by
            rw [updAssocW_append, enumW_append]
            · simp
            · intro p hp
              have hpv : p.1 ∈ vs := enumW_fst_mem vs 0 p hp
              intro he
              exact notMem_of_nodup_append (hvw ▸ hnd) (he ▸ hpv)
          have hstep : pass2Line vw d ⟨matrix, enumN 0 vs, enumW 0 vs, vs.length⟩
              (w :: x :: xs) =
              ⟨matrix.set vs.length ((x :: xs).map (fun t => (pyFloat? t).getD 0)),
                enumN 0 (vs ++ [w]), enumW 0 (vs ++ [w]), (vs ++ [w]).length⟩ := by
            have hunfold : pass2Line vw d ⟨matrix, enumN 0 vs, enumW 0 vs, vs.length⟩
                (w :: x :: xs) =
                (if w ∈ vw then
                  (if (x :: xs).all (fun t => (pyFloat? t).isSome) then
                    (match rowAssign d ((x :: xs).map (fun t => (pyFloat? t).getD 0)) with
                    | some row =>
                      (⟨matrix.set vs.length row, updAssocN (enumN 0 vs) vs.length w,
                        updAssocW (enumW 0 vs) w vs.length, vs.length + 1⟩ : P2State)
                    | none => ⟨matrix, enumN 0 vs, enumW 0 vs, vs.length⟩)
                  else ⟨matrix, enumN 0 vs, enumW 0 vs, vs.length⟩)
                else ⟨matrix, enumN 0 vs, enumW 0 vs, vs.length⟩) := rfl
            rw [hunfold, if_pos hwvw, if_pos hall, hrow, hN, hW]
            have hlen' : vs.length + 1 = (vs ++ [w]).length := by
              simp [List.length_append]
            rw [hlen']
          rw [hstep]
          obtain ⟨M, hM, hMlen⟩ := ih (vs ++ [w])
            (matrix.set vs.length ((x :: xs).map (fun t => (pyFloat? t).getD 0)))
            (by rw [hvw, List.append_assoc]; rfl)
            (fun l' hl' => hdim l' (by simp [hl']))
          exact ⟨M, hM, by rw [hMlen, List.length_set]⟩

/-- **C6 (amended)** — For a word2vec-style file with a header line, in which
each listed word occurs on at most one valid line and every valid line
carries exactly `nb_dims` coordinates, `loadEmbedding` returns maps that are
a bijection with the rows of the matrix, and only words whose line parses as
fully numeric are included.  Without those provisos the bijection fails: a
word occurring on two numeric lines occupies two rows while `wordsToNum`
keeps only the last (see the counterexample). -/
theorem claim_C6 (lines : List (List Token)) (lw : List Token) (r : EmbResult)
    (vw : List Token) (d : ℕ)
    (hok : loadEmbedding (some lines) lw = Except.ok r)
    (hp1 : pass1 lw lines = Except.ok (vw, d))
    (hheader : isHeaderLine (lines.headD []) = true)
    (hnd : vw.Nodup)
    (hdims : ∀ l ∈ lines.tail, lineValidFor lw l = true → l.tail.length = d) :
    mapsBijective r ∧
    r.matrix.length = vw.length ∧
    (∀ w, (lookupW r.wordsToNum w).isSome = true →
      ∃ l ∈ lines.tail, l.head? = some w ∧
        (∀ t ∈ l.tail, (pyFloat? t).isSome = true)) := by
  have hhead := hheader
  rw [isHeaderLine] at hhead
  simp only [Bool.and_eq_true, decide_eq_true_eq] at hhead
  obtain ⟨⟨hlen2, hi0⟩, hi1⟩ := hhead
  have hvw_eq : vw = scanValid lw lines.tail := by
    rw [pass1] at hp1
    rw [if_pos hlen2, if_pos (by rw [hi0, hi1]; rfl)] at hp1
    have := (Except.ok.injEq _ _).mp hp1
    exact ((Prod.mk.injEq ..).mp this).1.symm
  have hsub : ∀ x ∈ vw, x ∈ lw := by
    intro x hx
    rw [hvw_eq] at hx
    exact scanValid_subset lw lines.tail x hx
  obtain ⟨M, hM, hMlen⟩ := pass2_fold_inv lw d vw hnd hsub lines.tail []
    (List.replicate vw.length (List.replicate d 0)) (by simpa using hvw_eq) hdims
  have hpass2 : pass2 vw d lines =
      ⟨M, enumN 0 vw, enumW 0 vw, vw.length⟩ := by
    rw [pass2, if_pos hheader]
    exact hM
  rw [loadEmbedding, hp1] at hok
  have hr := (Except.ok.injEq _ _).mp hok
  have hmat : r.matrix = M := by rw [← hr, hpass2]
  have hn2w : r.numToWords = enumN 0 vw := by rw [← hr, hpass2]
  have hw2n : r.wordsToNum = enumW 0 vw := by rw [← hr, hpass2]
  have hmatlen : r.matrix.length = vw.length := by
    rw [hmat, hMlen, List.length_replicate]
  refine ⟨⟨?_, ?_⟩, hmatlen, ?_⟩
  · intro i hi'
    rw [hmatlen] at hi'
    have hw : vw.get? i = some (vw.get ⟨i, hi'⟩) := List.get?_eq_get hi'
    refine ⟨vw.get ⟨i, hi'⟩, ?_, ?_⟩
    · rw [hn2w, lookupN_enumN, if_pos (Nat.zero_le i)]
      simp only [Nat.sub_zero]
      exact hw
    · rw [hw2n]
      have := lookupW_enumW_nodup vw 0 hnd i (vw.get ⟨i, hi'⟩) hw
      simpa using this
  · intro w i hwi
    rw [hw2n] at hwi
    obtain ⟨j, hij, hget⟩ := lookupW_enumW_some vw 0 w i hwi
    have hj : i = j := by omega
    subst hj
    have hilt : i < vw.length := (List.get?_eq_some.mp hget).1
    refine ⟨by rwa [hmatlen], ?_⟩
    rw [hn2w, lookupN_enumN, if_pos (Nat.zero_le i)]
    simpa using hget
  · intro w hw
    obtain ⟨i, hi'⟩ := Option.isSome_iff_exists.mp hw
    rw [hw2n] at hi'
    obtain ⟨j, _, hget⟩ := lookupW_enumW_some vw 0 w i hi'
    have hwvw : w ∈ vw := List.get?_mem hget
    rw [hvw_eq] at hwvw
    obtain ⟨l, hl, hv, hh⟩ := (scanValid_mem lw lines.tail w).mp hwvw
    refine ⟨l, hl, hh, ?_⟩
    cases l with
    | nil => cases hh
    | cons w' rest =>
      intro t ht
      exact ((lineValidFor_cons lw w' rest).mp hv).2.2 t (by simpa using ht)

/-- Witness for C6 at a concrete header-file input. -/
theorem claim_C6_witness :
    mapsBijective (embResOf (loadEmbedding
      (some [["2", "2"], ["b", "1", "0"], ["c", "0", "1"]]) ["b", "c"])) ∧
    (embResOf (loadEmbedding
      (some [["2", "2"], ["b", "1", "0"], ["c", "0", "1"]]) ["b", "c"])).matrix.length = 2 ∧
    (∀ w, (lookupW (embResOf (loadEmbedding
        (some [["2", "2"], ["b", "1", "0"], ["c", "0", "1"]]) ["b", "c"])).wordsToNum w).isSome
        = true →
      ∃ l ∈ [["b", "1", "0"], ["c", "0", "1"]], l.head? = some w ∧
        (∀ t ∈ l.tail, (pyFloat? t).isSome = true)) :=
  claim_C6 [["2", "2"], ["b", "1", "0"], ["c", "0", "1"]] ["b", "c"]
    (embResOf (loadEmbedding
      (some [["2", "2"], ["b", "1", "0"], ["c", "0", "1"]]) ["b", "c"]))
    ["b", "c"] 2
    (by with_unfolding_all decide) (by with_unfolding_all decide)
    (by with_unfolding_all decide) (by decide) (by with_unfolding_all decide)

end HG2Vec
